import Mathlib

/-!
Verification development for the account/proxy scheduling core of the
opencode-antigravity-auth plugin.

The TypeScript sources are shallowly embedded: JavaScript objects and
Maps used as string-keyed dictionaries become association lists
(`List (κ × α)`) with first-match lookup and replace-or-append update,
which matches the unique-key semantics of JS objects; `Date.now()`
becomes an explicit `now : Nat` parameter; mutation becomes explicit
state passing.
-/

set_option autoImplicit false

namespace Antigravity

/-! ## Association-map helpers (JS object / Map semantics) -/

/-- Property read on a JS object: first (unique) matching key. -/
def mapGet {κ α : Type} [DecidableEq κ] : List (κ × α) → κ → Option α
  | [], _ => none
  | p :: t, k => if p.1 = k then some p.2 else mapGet t k

/-- Property write on a JS object: replace the value in place when the key
is present (insertion order preserved), append otherwise. -/
def mapSet {κ α : Type} [DecidableEq κ] : List (κ × α) → κ → α → List (κ × α)
  | [], k, v => [(k, v)]
  | p :: t, k, v => if p.1 = k then (k, v) :: t else p :: mapSet t k v

/-- The JS `delete obj[k]` operation. -/
def mapDelete {κ α : Type} [DecidableEq κ] (m : List (κ × α)) (k : κ) : List (κ × α) :=
  m.filter (fun p => decide (p.1 ≠ k))

/-- Keys of a JS object are pairwise distinct. -/
def keysNodup {κ α : Type} (m : List (κ × α)) : Prop :=
  (m.map Prod.fst).Nodup

instance {κ α : Type} [DecidableEq κ] (m : List (κ × α)) : Decidable (keysNodup m) := by
  unfold keysNodup; infer_instance

theorem mapGet_mapSet_self {κ α : Type} [DecidableEq κ] (m : List (κ × α)) (k : κ) (v : α) :
    mapGet (mapSet m k v) k = some v := by
  induction m with
  | nil => simp [mapGet, mapSet]
  | cons p t ih =>
    by_cases h : p.1 = k
    · simp [mapGet, mapSet, h]
    · simp [mapGet, mapSet, h, ih]

theorem mapGet_mapSet_ne {κ α : Type} [DecidableEq κ] (m : List (κ × α)) (k k' : κ) (v : α)
    (h : k' ≠ k) : mapGet (mapSet m k v) k' = mapGet m k' := by
  have hkk : ¬k = k' := fun hh => h hh.symm
  induction m with
  | nil => simp [mapGet, mapSet, hkk]
  | cons p t ih =>
    by_cases hp : p.1 = k
    · have hpk : ¬p.1 = k' := by rw [hp]; exact hkk
      simp only [mapSet, if_pos hp, mapGet, if_neg hkk, if_neg hpk]
    · simp only [mapSet, if_neg hp, mapGet]
      by_cases hp' : p.1 = k'
      · simp [hp']
      · simp [hp', ih]

theorem mapGet_eq_none_of_not_mem_keys {κ α : Type} [DecidableEq κ]
    (m : List (κ × α)) (k : κ) (h : k ∉ m.map Prod.fst) : mapGet m k = none := by
  induction m with
  | nil => rfl
  | cons p t ih =>
    simp only [List.map_cons, List.mem_cons] at h
    push_neg at h
    have hne : ¬p.1 = k := fun hh => h.1 hh.symm
    simp [mapGet, hne, ih h.2]

theorem mapGet_mem {κ α : Type} [DecidableEq κ] {m : List (κ × α)} {k : κ} {v : α}
    (h : mapGet m k = some v) : (k, v) ∈ m := by
  induction m with
  | nil => simp [mapGet] at h
  | cons p t ih =>
    by_cases hp : p.1 = k
    · simp only [mapGet, if_pos hp, Option.some.injEq] at h
      have hpv : p = (k, v) := Prod.ext hp h
      rw [← hpv]
      exact List.mem_cons_self _ _
    · simp only [mapGet, if_neg hp] at h
      exact List.mem_cons_of_mem _ (ih h)

theorem mem_mapSet {κ α : Type} [DecidableEq κ] {m : List (κ × α)} {k : κ} {v : α}
    {p : κ × α} (h : p ∈ mapSet m k v) : p ∈ m ∨ p = (k, v) := by
  induction m with
  | nil => simp [mapSet] at h; simp [h]
  | cons q t ih =>
    by_cases hq : q.1 = k
    · simp only [mapSet, if_pos hq, List.mem_cons] at h
      rcases h with h | h
      · right; exact h
      · left; exact List.mem_cons_of_mem _ h
    · simp only [mapSet, if_neg hq, List.mem_cons] at h
      rcases h with h | h
      · left; simp [h]
      · rcases ih h with h' | h'
        · left; exact List.mem_cons_of_mem _ h'
        · right; exact h'

theorem keys_mapSet_of_mem {κ α : Type} [DecidableEq κ] (m : List (κ × α)) (k : κ) (v : α)
    (h : k ∈ m.map Prod.fst) : (mapSet m k v).map Prod.fst = m.map Prod.fst := by
  induction m with
  | nil => simp at h
  | cons p t ih =>
    by_cases hp : p.1 = k
    · simp [mapSet, hp]
    · simp only [List.map_cons, List.mem_cons] at h
      rcases h with h | h
      · exact absurd h.symm hp
      · simp [mapSet, hp, ih h]

theorem keys_mapSet_of_not_mem {κ α : Type} [DecidableEq κ] (m : List (κ × α)) (k : κ) (v : α)
    (h : k ∉ m.map Prod.fst) : (mapSet m k v).map Prod.fst = m.map Prod.fst ++ [k] := by
  induction m with
  | nil => simp [mapSet]
  | cons p t ih =>
    simp only [List.map_cons, List.mem_cons] at h
    push_neg at h
    have hne : ¬p.1 = k := fun hh => h.1 hh.symm
    simp [mapSet, hne, ih h.2]

theorem keysNodup_mapSet {κ α : Type} [DecidableEq κ] (m : List (κ × α)) (k : κ) (v : α)
    (h : keysNodup m) : keysNodup (mapSet m k v) := by
  unfold keysNodup at *
  by_cases hk : k ∈ m.map Prod.fst
  · rw [keys_mapSet_of_mem m k v hk]; exact h
  · rw [keys_mapSet_of_not_mem m k v hk, List.nodup_append]
    refine ⟨h, List.nodup_singleton _, ?_⟩
    intro a ha hb
    simp only [List.mem_singleton] at hb
    exact hk (hb ▸ ha)

theorem mapGet_of_mem_nodup {κ α : Type} [DecidableEq κ] {m : List (κ × α)} {k : κ} {v : α}
    (hnd : keysNodup m) (h : (k, v) ∈ m) : mapGet m k = some v := by
  induction m with
  | nil => simp at h
  | cons p t ih =>
    unfold keysNodup at hnd
    simp only [List.map_cons, List.nodup_cons] at hnd
    rcases List.mem_cons.mp h with h | h
    · simp [mapGet, ← h]
    · have hne : p.1 ≠ k := by
        intro he
        exact hnd.1 (he ▸ (List.mem_map.mpr ⟨(k, v), h, rfl⟩))
      simp [mapGet, hne, ih hnd.2 h]

theorem mapSet_entry_eq {κ α : Type} [DecidableEq κ] {m : List (κ × α)} {k : κ} {v : α}
    {p : κ × α} (hnd : keysNodup m) (hp : p ∈ mapSet m k v) (hk : p.1 = k) : p.2 = v := by
  induction m with
  | nil =>
    simp [mapSet] at hp
    simp [hp]
  | cons q t ih =>
    unfold keysNodup at hnd
    simp only [List.map_cons, List.nodup_cons] at hnd
    by_cases hq : q.1 = k
    · simp only [mapSet, if_pos hq, List.mem_cons] at hp
      rcases hp with hp | hp
      · simp [hp]
      · exfalso
        exact hnd.1 (by
          rw [hq]
          rw [← hk]
          exact List.mem_map.mpr ⟨p, hp, rfl⟩)
    · simp only [mapSet, if_neg hq, List.mem_cons] at hp
      rcases hp with hp | hp
      · exact absurd (hp ▸ hk) hq
      · exact ih hnd.2 hp

theorem mapGet_mapDelete_self {κ α : Type} [DecidableEq κ] (m : List (κ × α)) (k : κ) :
    mapGet (mapDelete m k) k = none := by
  induction m with
  | nil => rfl
  | cons p t ih =>
    by_cases hp : p.1 = k
    · simpa [mapDelete, List.filter_cons, hp] using ih
    · have hd : (decide (p.1 ≠ k)) = true := by simp [hp]
      simp only [mapDelete, List.filter_cons, hd, if_true] at ih ⊢
      simpa [mapGet, hp] using ih

/-! ## Rate-limit tracking (plugin/accounts.js)

One managed account's rate-limit and freshness state.  Timestamps are
epoch milliseconds; `Date.now()` is the explicit `now` parameter. -/

inductive Family : Type
  | claude
  | gemini
deriving DecidableEq, Repr

inductive HeaderStyle : Type
  | antigravity
  | geminiCli
deriving DecidableEq, Repr

structure ManagedAccount where
  index : Nat
  email : Option String
  refreshToken : String
  addedAt : Nat
  lastUsed : Nat
  rateLimitResetTimes : List (String × Nat)
  touchedForQuota : List (String × Nat)
  coolingDownUntil : Option Nat
  cooldownReason : Option String
deriving DecidableEq, Repr

/-- `getQuotaKey(family, headerStyle, model)` from accounts.js. -/
def getQuotaKey (family : Family) (headerStyle : HeaderStyle) (model : Option String) : String :=
  match family with
  | .claude => "claude"
  | .gemini =>
    let base := match headerStyle with
      | .geminiCli => "gemini-cli"
      | .antigravity => "gemini-antigravity"
    match model with
    | some m => base ++ ":" ++ m
    | none => base

/-- `isRateLimitedForQuotaKey`: limited iff an entry exists and now is
strictly before it. -/
def isRateLimitedForQuotaKey (account : ManagedAccount) (now : Nat) (key : String) : Bool :=
  match mapGet account.rateLimitResetTimes key with
  | some resetTime => now < resetTime
  | none => false

/-- `clearExpiredRateLimits`: deletes every entry whose reset time has
passed (`now >= resetTime`). -/
def clearExpiredRateLimits (account : ManagedAccount) (now : Nat) : ManagedAccount :=
  { account with
    rateLimitResetTimes :=
      account.rateLimitResetTimes.filter (fun p => decide (now < p.2)) }

/-- `isRateLimitedForHeaderStyle`: clears expired entries, then for
Gemini checks the model-specific key first (when a model is given) and
falls back to the family-wide base key. -/
def isRateLimitedForHeaderStyle (account : ManagedAccount) (now : Nat) (family : Family)
    (headerStyle : HeaderStyle) (model : Option String) : Bool :=
  let acc := clearExpiredRateLimits account now
  match family with
  | .claude => isRateLimitedForQuotaKey acc now "claude"
  | .gemini =>
    let modelHit := match model with
      | some m => isRateLimitedForQuotaKey acc now (getQuotaKey .gemini headerStyle (some m))
      | none => false
    modelHit || isRateLimitedForQuotaKey acc now (getQuotaKey .gemini headerStyle none)

/-- `isRateLimitedForFamily`: Claude checks its single key; Gemini is
limited only when both header-style pools are limited. -/
def isRateLimitedForFamily (account : ManagedAccount) (now : Nat) (family : Family)
    (model : Option String) : Bool :=
  match family with
  | .claude => isRateLimitedForQuotaKey account now "claude"
  | .gemini =>
    isRateLimitedForHeaderStyle account now .gemini .antigravity model &&
    isRateLimitedForHeaderStyle account now .gemini .geminiCli model

/-- `markRateLimited`: writes `now + retryAfterMs` into the resolved
quota key. -/
def markRateLimited (account : ManagedAccount) (now retryAfterMs : Nat) (family : Family)
    (headerStyle : HeaderStyle) (model : Option String) : ManagedAccount :=
  { account with
    rateLimitResetTimes :=
      mapSet account.rateLimitResetTimes (getQuotaKey family headerStyle model)
        (now + retryAfterMs) }

/-- `markTouchedForQuota`: records the touch time for a quota key. -/
def markTouchedForQuota (account : ManagedAccount) (now : Nat) (quotaKey : String) :
    ManagedAccount :=
  { account with touchedForQuota := mapSet account.touchedForQuota quotaKey now }

/-- `isFreshForQuota` (hybrid strategy).  JS truthiness is modelled
explicitly: a touch time of `0` is falsy, as is a reset time of `0`. -/
def isFreshForQuota (account : ManagedAccount) (quotaKey : String) : Bool :=
  match mapGet account.touchedForQuota quotaKey with
  | none => true
  | some touchedAt =>
    if touchedAt = 0 then true
    else
      match mapGet account.rateLimitResetTimes quotaKey with
      | some resetTime => if resetTime ≠ 0 ∧ touchedAt < resetTime then true else false
      | none => false

theorem keys_filter_subset {κ α : Type} (f : κ × α → Bool) (m : List (κ × α)) (k : κ)
    (h : k ∈ (m.filter f).map Prod.fst) : k ∈ m.map Prod.fst := by
  rcases List.mem_map.mp h with ⟨p, hp, hk⟩
  exact List.mem_map.mpr ⟨p, List.mem_of_mem_filter hp, hk⟩

theorem mapGet_filter_lt (t : List (String × Nat)) (now : Nat) (key : String)
    (hnd : keysNodup t) :
    mapGet (t.filter (fun p => decide (now < p.2))) key =
      match mapGet t key with
      | some resetTime => if now < resetTime then some resetTime else none
      | none => none := by
  induction t with
  | nil => rfl
  | cons p t ih =>
    unfold keysNodup at hnd
    simp only [List.map_cons, List.nodup_cons] at hnd
    by_cases hp : p.1 = key
    · have hnot : key ∉ t.map Prod.fst := hp ▸ hnd.1
      have hnone : mapGet (t.filter (fun q => decide (now < q.2))) key = none :=
        mapGet_eq_none_of_not_mem_keys _ _ (fun hmem => hnot (keys_filter_subset _ _ _ hmem))
      by_cases hlt : now < p.2
      · simp [List.filter_cons, hlt, mapGet, hp]
      · simp [List.filter_cons, hlt, mapGet, hp, hnone]
    · by_cases hlt : now < p.2
      · simpa [List.filter_cons, hlt, mapGet, hp] using ih hnd.2
      · simpa [List.filter_cons, hlt, mapGet, hp] using ih hnd.2

/-- The value semantics of lazy expiry deletion: on a map with unique
keys, looking up a key after `clearExpiredRateLimits` gives the stored
reset time when it is still in the future and nothing otherwise. -/
theorem mapGet_clearExpired (account : ManagedAccount) (now : Nat) (key : String)
    (hnd : keysNodup account.rateLimitResetTimes) :
    mapGet (clearExpiredRateLimits account now).rateLimitResetTimes key =
      match mapGet account.rateLimitResetTimes key with
      | some resetTime => if now < resetTime then some resetTime else none
      | none => none :=
  mapGet_filter_lt account.rateLimitResetTimes now key hnd

/-- Clearing expired entries does not change the limited verdict at the
same instant, because an entry only survives when `now < resetTime`. -/
theorem isRateLimited_clearExpired (account : ManagedAccount) (now : Nat) (key : String)
    (hnd : keysNodup account.rateLimitResetTimes) :
    isRateLimitedForQuotaKey (clearExpiredRateLimits account now) now key =
      isRateLimitedForQuotaKey account now key := by
  unfold isRateLimitedForQuotaKey
  rw [mapGet_clearExpired account now key hnd]
  cases h : mapGet account.rateLimitResetTimes key with
  | none => rfl
  | some resetTime =>
    by_cases hlt : now < resetTime
    · simp [hlt]
    · simp [hlt]

/-- One Gemini header-style pool is limited exactly when the
model-specific key (if a model is given) or the family-wide base key is
limited. -/
theorem headerStyle_pool_eq (account : ManagedAccount) (now : Nat) (style : HeaderStyle)
    (model : Option String) (hnd : keysNodup account.rateLimitResetTimes) :
    isRateLimitedForHeaderStyle account now .gemini style model =
      (isRateLimitedForQuotaKey account now (getQuotaKey .gemini style model) ||
       isRateLimitedForQuotaKey account now (getQuotaKey .gemini style none)) := by
  unfold isRateLimitedForHeaderStyle
  cases model with
  | none => simp [isRateLimited_clearExpired _ _ _ hnd]
  | some m => simp [isRateLimited_clearExpired _ _ _ hnd]

/-- C2: For every account and every Gemini request, the account is
rate-limited for the family iff both header-style pools are limited at
the current time, a pool being limited when its model-specific key or
its base key is limited; if either pool is unlimited the account is not
rate-limited for the family. -/
theorem geminiFamilyLimited_iff_bothPools (account : ManagedAccount) (now : Nat)
    (model : Option String) (hnd : keysNodup account.rateLimitResetTimes) :
    (isRateLimitedForFamily account now .gemini model =
      ((isRateLimitedForQuotaKey account now (getQuotaKey .gemini .antigravity model) ||
        isRateLimitedForQuotaKey account now (getQuotaKey .gemini .antigravity none)) &&
       (isRateLimitedForQuotaKey account now (getQuotaKey .gemini .geminiCli model) ||
        isRateLimitedForQuotaKey account now (getQuotaKey .gemini .geminiCli none))))
    ∧ (isRateLimitedForHeaderStyle account now .gemini .antigravity model = false ∨
        isRateLimitedForHeaderStyle account now .gemini .geminiCli model = false →
        isRateLimitedForFamily account now .gemini model = false) := by
  constructor
  · show (isRateLimitedForHeaderStyle account now .gemini .antigravity model &&
        isRateLimitedForHeaderStyle account now .gemini .geminiCli model) = _
    rw [headerStyle_pool_eq account now .antigravity model hnd,
      headerStyle_pool_eq account now .geminiCli model hnd]
  · intro h
    show (isRateLimitedForHeaderStyle account now .gemini .antigravity model &&
        isRateLimitedForHeaderStyle account now .gemini .geminiCli model) = false
    rcases h with h | h <;> simp [h]

/-- Witness for C2 at a concrete account: the antigravity pool is
limited through the model key, the cli pool through its base key, and
the family verdict is limited. -/
def c2Account : ManagedAccount :=
  { index := 0, email := none, refreshToken := "r", addedAt := 0, lastUsed := 0,
    rateLimitResetTimes := [("gemini-antigravity:m", 100), ("gemini-cli", 90)],
    touchedForQuota := [], coolingDownUntil := none, cooldownReason := none }

theorem geminiFamilyLimited_iff_bothPools_witness :
    isRateLimitedForFamily c2Account 50 .gemini (some "m") = true := by
  have h := (geminiFamilyLimited_iff_bothPools c2Account 50 (some "m") (by decide)).1
  rw [h]
  decide

/-- C6: immediately after markRateLimited the resolved quota key is
limited; it is unlimited once the clock passes the mark time plus the
retry delay; an account is limited for a key iff now is strictly before
the stored reset time; and expired entries are deleted when rate-limit
state is read through clearExpiredRateLimits. -/
theorem markRateLimited_spec (account : ManagedAccount) (now dt : Nat) (family : Family)
    (headerStyle : HeaderStyle) (model : Option String) (hdt : 0 < dt) :
    isRateLimitedForQuotaKey (markRateLimited account now dt family headerStyle model) now
        (getQuotaKey family headerStyle model) = true
    ∧ (∀ later : Nat, now + dt < later →
        isRateLimitedForQuotaKey (markRateLimited account now dt family headerStyle model) later
          (getQuotaKey family headerStyle model) = false)
    ∧ (∀ (a : ManagedAccount) (n : Nat) (k : String),
        isRateLimitedForQuotaKey a n k = true ↔
          ∃ r, mapGet a.rateLimitResetTimes k = some r ∧ n < r)
    ∧ (∀ (a : ManagedAccount) (n : Nat) (k : String), keysNodup a.rateLimitResetTimes →
        mapGet (clearExpiredRateLimits a n).rateLimitResetTimes k =
          match mapGet a.rateLimitResetTimes k with
          | some resetTime => if n < resetTime then some resetTime else none
          | none => none) := by
  have hset : mapGet (markRateLimited account now dt family headerStyle model).rateLimitResetTimes
      (getQuotaKey family headerStyle model) = some (now + dt) :=
    mapGet_mapSet_self _ _ _
  refine ⟨?_, ?_, ?_, ?_⟩
  · unfold isRateLimitedForQuotaKey
    rw [hset]
    simpa using hdt
  · intro later hlater
    unfold isRateLimitedForQuotaKey
    rw [hset]
    simpa using Nat.le_of_lt hlater
  · intro a n k
    unfold isRateLimitedForQuotaKey
    cases h : mapGet a.rateLimitResetTimes k with
    | none => simp
    | some r => simp
  · intro a n k hnd
    exact mapGet_clearExpired a n k hnd

/-- Witness for C6: a concrete mark at time 10 with delay 7. -/
def c6Account : ManagedAccount :=
  { index := 0, email := none, refreshToken := "r", addedAt := 0, lastUsed := 0,
    rateLimitResetTimes := [("claude", 3)], touchedForQuota := [],
    coolingDownUntil := none, cooldownReason := none }

theorem markRateLimited_spec_witness :
    isRateLimitedForQuotaKey (markRateLimited c6Account 10 7 .claude .antigravity none) 10
        "claude" = true
    ∧ isRateLimitedForQuotaKey (markRateLimited c6Account 10 7 .claude .antigravity none) 18
        "claude" = false := by
  have h := markRateLimited_spec c6Account 10 7 .claude .antigravity none (by decide)
  exact ⟨h.1, h.2.1 18 (by decide)⟩

/-- C9 counterexample: an account touched (at a nonzero time) for a
quota key that has no rate-limit reset timestamp is reported stale by
isFreshForQuota, while the claim calls a never-limited account fresh. -/
def c9Account : ManagedAccount :=
  { index := 0, email := none, refreshToken := "r", addedAt := 0, lastUsed := 0,
    rateLimitResetTimes := [], touchedForQuota := [("gemini-antigravity", 5)],
    coolingDownUntil := none, cooldownReason := none }

theorem freshness_counterexample :
    mapGet c9Account.rateLimitResetTimes "gemini-antigravity" = none
    ∧ mapGet c9Account.touchedForQuota "gemini-antigravity" = some 5
    ∧ isFreshForQuota c9Account "gemini-antigravity" = false := by
  decide

/-- C9 (amended): a never-touched account is fresh for a key (missing
touch state is fresh); a touched account is fresh iff a reset timestamp
exists that strictly postdates the touch; in particular a touched
account with no reset timestamp for the key is stale. -/
theorem freshness_spec (account : ManagedAccount) (quotaKey : String) :
    (mapGet account.touchedForQuota quotaKey = none →
      isFreshForQuota account quotaKey = true)
    ∧ (∀ t, mapGet account.touchedForQuota quotaKey = some t → 0 < t →
        (isFreshForQuota account quotaKey = true ↔
          ∃ r, mapGet account.rateLimitResetTimes quotaKey = some r ∧ t < r))
    ∧ (∀ t, mapGet account.touchedForQuota quotaKey = some t → 0 < t →
        mapGet account.rateLimitResetTimes quotaKey = none →
        isFreshForQuota account quotaKey = false) := by
  refine ⟨?_, ?_, ?_⟩
  · intro h
    unfold isFreshForQuota
    rw [h]
  · intro t ht hpos
    unfold isFreshForQuota
    rw [ht]
    have hne : ¬t = 0 := Nat.pos_iff_ne_zero.mp hpos
    simp only [hne, if_false]
    cases hr : mapGet account.rateLimitResetTimes quotaKey with
    | none => simp
    | some r =>
      constructor
      · intro h
        by_cases hc : r ≠ 0 ∧ t < r
        · exact ⟨r, rfl, hc.2⟩
        · simp [hc] at h
      · rintro ⟨r', hr', hlt⟩
        have hrr : r = r' := Option.some.inj hr'
        subst hrr
        have h0 : r ≠ 0 := by omega
        simp [h0, hlt]
  · intro t ht hpos hnone
    unfold isFreshForQuota
    rw [ht, hnone]
    have hne : ¬t = 0 := Nat.pos_iff_ne_zero.mp hpos
    simp [hne]

/-- Witness for C9 (amended) at concrete accounts. -/
def c9FreshAccount : ManagedAccount :=
  { index := 0, email := none, refreshToken := "r", addedAt := 0, lastUsed := 0,
    rateLimitResetTimes := [("k", 9)], touchedForQuota := [("k", 5)],
    coolingDownUntil := none, cooldownReason := none }

theorem freshness_spec_witness :
    isFreshForQuota c9FreshAccount "k" = true
    ∧ isFreshForQuota c9Account "gemini-antigravity" = false := by
  constructor
  · exact ((freshness_spec c9FreshAccount "k").2.1 5 (by decide) (by decide)).mpr
      ⟨9, by decide, by decide⟩
  · exact (freshness_spec c9Account "gemini-antigravity").2.2 5 (by decide) (by decide)
      (by decide)

/-! ## Proxy health and failover (plugin/proxy.ts)

Runtime proxy-health state is keyed by the pair
`(accountIndex, proxyUrl)` (the source builds a string key from them,
which is injective).  Network attempts are modelled by an oracle giving
the outcome of the n-th fetch. -/

structure ProxyRuntimeState where
  failCount : Nat
  lastFailTime : Nat
  cooldownUntil : Nat
deriving DecidableEq, Repr

structure ProxyConfig where
  url : String
  enabled : Option Bool
deriving DecidableEq, Repr

def PROXY_COOLDOWN_PROGRESSION_MS : List Nat := [5000, 15000, 60000, 300000]

/-- `calculateCooldownMs`: ladder index `min(failCount - 1, 3)`; the
JS index is a possibly-negative number and an out-of-range read yields
undefined, coalesced to 300000. -/
def calculateCooldownMs (failCount : Nat) : Nat :=
  if min ((failCount : Int) - 1) 3 < 0 then 300000
  else PROXY_COOLDOWN_PROGRESSION_MS.getD (min ((failCount : Int) - 1) 3).toNat 300000

abbrev ProxyStates : Type := List ((Nat × String) × ProxyRuntimeState)

/-- `markFailed`: increments the pair's failure count and sets the
cooldown deadline from the ladder. -/
def markFailed (states : ProxyStates) (accountIndex : Nat) (proxyUrl : String) (now : Nat) :
    ProxyStates :=
  let prev := match mapGet states (accountIndex, proxyUrl) with
    | some s => s.failCount
    | none => 0
  let failCount := prev + 1
  mapSet states (accountIndex, proxyUrl)
    ⟨failCount, now, now + calculateCooldownMs failCount⟩

/-- `markSuccess`: deletes the pair's runtime state entirely. -/
def markSuccess (states : ProxyStates) (accountIndex : Nat) (proxyUrl : String) : ProxyStates :=
  mapDelete states (accountIndex, proxyUrl)

/-- `isAvailable`: disabled proxies are never available; otherwise a
proxy is available when it has no runtime state or its cooldown deadline
has passed. -/
def isAvailable (states : ProxyStates) (now : Nat) (accountIndex : Nat)
    (proxy : ProxyConfig) : Bool :=
  if proxy.enabled = some false then false
  else
    match mapGet states (accountIndex, proxy.url) with
    | none => true
    | some s => s.cooldownUntil ≤ now

inductive FetchOutcome : Type
  | success
  | connError
  | otherError
deriving DecidableEq, Repr

/-- Result of one `fetchWithProxy` call: a response, a
ProxyExhaustedError carrying `(accountIndex, proxyCount)`, or a
non-connection error rethrown to the caller. -/
inductive FetchCall : Type
  | ok
  | exhausted (accountIndex : Nat) (proxyCount : Nat)
  | passthrough
deriving DecidableEq, Repr

/-- The failover loop of `fetchWithProxy` over the available proxies.
Also returns the number of fetch attempts performed and the final
health states. -/
def fetchLoop (accountIndex : Nat) (now : Nat) (outcomes : Nat → FetchOutcome)
    (availableCount : Nat) :
    List ProxyConfig → Nat → ProxyStates → FetchCall × Nat × ProxyStates
  | [], attempts, states => (.exhausted accountIndex availableCount, attempts, states)
  | proxy :: rest, attempts, states =>
    match outcomes attempts with
    | .success => (.ok, attempts + 1, markSuccess states accountIndex proxy.url)
    | .connError =>
      fetchLoop accountIndex now outcomes availableCount rest (attempts + 1)
        (markFailed states accountIndex proxy.url now)
    | .otherError => (.passthrough, attempts + 1, states)

/-- `fetchWithProxy`: no proxies configured means one direct fetch;
a non-empty list with no enabled entry fails closed with proxyCount 0;
no available entry fails closed carrying the enabled count; otherwise
the failover loop runs over the available proxies in order. -/
def fetchWithProxy (proxies : List ProxyConfig) (accountIndex : Option Nat)
    (states : ProxyStates) (now : Nat) (outcomes : Nat → FetchOutcome) :
    FetchCall × Nat × ProxyStates :=
  if proxies.isEmpty then (.ok, 1, states)
  else
    let acctIdx := accountIndex.getD 0
    let enabledCount := (proxies.filter (fun p => decide (p.enabled ≠ some false))).length
    if enabledCount = 0 then (.exhausted acctIdx 0, 0, states)
    else
      let available := proxies.filter (isAvailable states now acctIdx)
      if available.isEmpty then (.exhausted acctIdx enabledCount, 0, states)
      else fetchLoop acctIdx now outcomes available.length available 0 states

/-- The `k`-th consecutive failure state for one `(account, proxy)`
pair, failures happening at times `times 0, ..., times (k-1)`. -/
def consecutiveFailures (times : Nat → Nat) (accountIndex : Nat) (proxyUrl : String) :
    Nat → ProxyStates
  | 0 => []
  | k + 1 =>
    markFailed (consecutiveFailures times accountIndex proxyUrl k) accountIndex proxyUrl
      (times k)

theorem calculateCooldownMs_eq (k : Nat) (hk : 1 ≤ k) :
    calculateCooldownMs k = PROXY_COOLDOWN_PROGRESSION_MS.getD (min (k - 1) 3) 300000 := by
  obtain ⟨n, rfl⟩ : ∃ n, k = n + 1 := ⟨k - 1, by omega⟩
  unfold calculateCooldownMs
  have h0 : ¬min (((n + 1 : Nat) : Int) - 1) 3 < 0 := by push_cast; omega
  rw [if_neg h0]
  have h1 : (min (((n + 1 : Nat) : Int) - 1) 3).toNat = min (n + 1 - 1) 3 := by
    push_cast
    omega
  rw [h1]

theorem consecutiveFailures_get (times : Nat → Nat) (accountIndex : Nat) (proxyUrl : String)
    (k : Nat) (hk : 1 ≤ k) :
    mapGet (consecutiveFailures times accountIndex proxyUrl k) (accountIndex, proxyUrl) =
      some ⟨k, times (k - 1), times (k - 1) + calculateCooldownMs k⟩ := by
  induction k with
  | zero => omega
  | succ n ih =>
    show mapGet (markFailed (consecutiveFailures times accountIndex proxyUrl n)
      accountIndex proxyUrl (times n)) (accountIndex, proxyUrl) = _
    unfold markFailed
    by_cases hn : 1 ≤ n
    · rw [ih hn]
      simpa using mapGet_mapSet_self _ _ _
    · have hn0 : n = 0 := by omega
      subst hn0
      simpa using mapGet_mapSet_self _ _ _

/-- C4: the k-th consecutive connection failure on one (account, proxy)
pair records failCount k and a cooldown deadline of the failure time
plus the ladder value at index min(k-1, 3) — 5s, 15s, 60s then 300s for
every k at least 4 — and one success deletes the runtime state, so the
next failure restarts the ladder at +5s. -/
theorem proxyCooldownLadder (times : Nat → Nat) (accountIndex : Nat) (proxyUrl : String)
    (k : Nat) (hk : 1 ≤ k) :
    mapGet (consecutiveFailures times accountIndex proxyUrl k) (accountIndex, proxyUrl) =
      some ⟨k, times (k - 1), times (k - 1) + calculateCooldownMs k⟩
    ∧ calculateCooldownMs k = PROXY_COOLDOWN_PROGRESSION_MS.getD (min (k - 1) 3) 300000
    ∧ (k = 1 → calculateCooldownMs k = 5000)
    ∧ (k = 2 → calculateCooldownMs k = 15000)
    ∧ (k = 3 → calculateCooldownMs k = 60000)
    ∧ (4 ≤ k → calculateCooldownMs k = 300000)
    ∧ mapGet (markSuccess (consecutiveFailures times accountIndex proxyUrl k)
        accountIndex proxyUrl) (accountIndex, proxyUrl) = none
    ∧ (∀ t, mapGet (markFailed (markSuccess (consecutiveFailures times accountIndex proxyUrl k)
        accountIndex proxyUrl) accountIndex proxyUrl t) (accountIndex, proxyUrl) =
          some ⟨1, t, t + 5000⟩) := by
  refine ⟨consecutiveFailures_get times accountIndex proxyUrl k hk,
    calculateCooldownMs_eq k hk, ?_, ?_, ?_, ?_, ?_, ?_⟩
  · rintro rfl; decide
  · rintro rfl; decide
  · rintro rfl; decide
  · intro h4
    rw [calculateCooldownMs_eq k hk]
    have hmin : min (k - 1) 3 = 3 := by omega
    rw [hmin]
    rfl
  · exact mapGet_mapDelete_self _ _
  · intro t
    have hdel : mapGet (markSuccess (consecutiveFailures times accountIndex proxyUrl k)
        accountIndex proxyUrl) (accountIndex, proxyUrl) = none := mapGet_mapDelete_self _ _
    have hc : calculateCooldownMs (0 + 1) = 5000 := by decide
    unfold markFailed
    rw [hdel]
    simpa [hc] using mapGet_mapSet_self
      (markSuccess (consecutiveFailures times accountIndex proxyUrl k) accountIndex proxyUrl)
      (accountIndex, proxyUrl)
      (⟨0 + 1, t, t + calculateCooldownMs (0 + 1)⟩ : ProxyRuntimeState)

/-- Witness for C4 at k = 5 failures, 1 second apart. -/
theorem proxyCooldownLadder_witness :
    mapGet (consecutiveFailures (fun n => 1000 * n) 0 "socks5://p" 5) (0, "socks5://p") =
      some ⟨5, 4000, 304000⟩ := by
  have h := proxyCooldownLadder (fun n => 1000 * n) 0 "socks5://p" 5 (by omega)
  have h4 := h.2.2.2.2.2.1 (by omega)
  rw [h.1, h4]

/-- C5: with a non-empty proxy list in which every entry is disabled,
fetchWithProxy raises ProxyExhaustedError with proxyCount 0 and performs
zero network fetches; and whenever some proxies are enabled but none is
available, it raises ProxyExhaustedError carrying the enabled count,
again with zero fetches — never a silent direct connection. -/
theorem proxyFailClosed (proxies : List ProxyConfig) (accountIndex : Option Nat)
    (states : ProxyStates) (now : Nat) (outcomes : Nat → FetchOutcome)
    (hne : proxies ≠ []) :
    ((∀ p ∈ proxies, p.enabled = some false) →
      fetchWithProxy proxies accountIndex states now outcomes =
        (.exhausted (accountIndex.getD 0) 0, 0, states))
    ∧ ((proxies.filter (fun p => decide (p.enabled ≠ some false))).length ≠ 0 →
        proxies.filter (isAvailable states now (accountIndex.getD 0)) = [] →
        fetchWithProxy proxies accountIndex states now outcomes =
          (.exhausted (accountIndex.getD 0)
            ((proxies.filter (fun p => decide (p.enabled ≠ some false))).length), 0, states)) := by
  have hempty : proxies.isEmpty = false := by
    cases proxies with
    | nil => exact absurd rfl hne
    | cons p t => rfl
  constructor
  · intro hall
    have hfilter : proxies.filter (fun p => decide (p.enabled ≠ some false)) = [] := by
      rw [List.filter_eq_nil_iff]
      intro p hp
      simp [hall p hp]
    unfold fetchWithProxy
    rw [hempty]
    simp only [Bool.false_eq_true, if_false]
    rw [hfilter]
    rfl
  · intro hcount havail
    unfold fetchWithProxy
    rw [hempty]
    simp only [Bool.false_eq_true, if_false]
    rw [if_neg hcount, havail]
    rfl

/-- Witness for C5: one disabled proxy fails closed with count 0, and
one enabled proxy in cooldown fails closed with count 1, no fetches. -/
theorem proxyFailClosed_witness :
    fetchWithProxy [⟨"http://p", some false⟩] (some 2) [] 0 (fun _ => .success) =
      (.exhausted 2 0, 0, [])
    ∧ fetchWithProxy [⟨"http://p", none⟩] (some 2)
        [((2, "http://p"), ⟨1, 0, 5000⟩)] 10 (fun _ => .success) =
      (.exhausted 2 1, 0, [((2, "http://p"), ⟨1, 0, 5000⟩)]) := by
  constructor
  · exact (proxyFailClosed [⟨"http://p", some false⟩] (some 2) [] 0 (fun _ => .success)
      (by simp)).1 (by decide)
  · exact (proxyFailClosed [⟨"http://p", none⟩] (some 2) [((2, "http://p"), ⟨1, 0, 5000⟩)] 10
      (fun _ => .success) (by simp)).2 (by decide) (by decide)

/-! ## Cross-process account reservations (plugin/reservations.ts)

The reservation file maps an account index (a numeric string in the
JSON file, injective from Nat) to one reservation.  The querying
process's pid and the OS liveness probe (process.kill(pid, 0)) are
explicit parameters. -/

def RESERVATION_TTL_MS : Nat := 30000

structure Reservation where
  pid : Nat
  timestamp : Nat
  family : Family
  expiresAt : Nat
deriving DecidableEq, Repr

abbrev ReservationFile : Type := List (Nat × Reservation)

/-- `isAccountReserved`: an entry blocks the querying process only when
it exists, is unexpired, belongs to another pid, that pid is alive, and
the families match. -/
def isAccountReserved (file : ReservationFile) (selfPid : Nat) (alive : Nat → Bool)
    (now : Nat) (accountIndex : Nat) (family : Family) : Bool :=
  match mapGet file accountIndex with
  | none => false
  | some res =>
    if res.expiresAt ≤ now then false
    else if res.pid = selfPid then false
    else if !alive res.pid then false
    else if res.family ≠ family then false
    else true

/-- `cleanStaleReservations`: keeps only unexpired entries whose owner
is the calling process or still alive. -/
def cleanStaleReservations (file : ReservationFile) (selfPid : Nat) (alive : Nat → Bool)
    (now : Nat) : ReservationFile :=
  file.filter (fun p => decide (now < p.2.expiresAt) &&
    (decide (p.2.pid = selfPid) || alive p.2.pid))

/-- `reserveAccount`: prunes stale entries then unconditionally installs
the calling process's reservation at the account's key. -/
def reserveAccount (file : ReservationFile) (selfPid : Nat) (alive : Nat → Bool)
    (now : Nat) (accountIndex : Nat) (family : Family) : ReservationFile :=
  mapSet (cleanStaleReservations file selfPid alive now) accountIndex
    ⟨selfPid, now, family, now + RESERVATION_TTL_MS⟩

/-- C7: after reserveAccount(i, f), the same process is never blocked
by its own reservation; a different live pid is blocked while the
reservation is unexpired; once expiresAt is reached no one is blocked;
and in general a reservation blocks only when it is unexpired, foreign,
and its owner is alive. -/
theorem reservationBlocking (file : ReservationFile) (selfPid : Nat) (alive : Nat → Bool)
    (now : Nat) (accountIndex : Nat) (family : Family) (halive : alive selfPid = true) :
    (∀ later : Nat,
      isAccountReserved (reserveAccount file selfPid alive now accountIndex family)
        selfPid alive later accountIndex family = false)
    ∧ (∀ (qPid later : Nat), qPid ≠ selfPid → later < now + RESERVATION_TTL_MS →
        isAccountReserved (reserveAccount file selfPid alive now accountIndex family)
          qPid alive later accountIndex family = true)
    ∧ (∀ (qPid later : Nat), now + RESERVATION_TTL_MS ≤ later →
        isAccountReserved (reserveAccount file selfPid alive now accountIndex family)
          qPid alive later accountIndex family = false)
    ∧ (∀ (g : ReservationFile) (qPid t i : Nat) (f : Family),
        isAccountReserved g qPid alive t i f = true →
        ∃ res, mapGet g i = some res ∧ t < res.expiresAt ∧ res.pid ≠ qPid ∧
          alive res.pid = true) := by
  have hget : mapGet (reserveAccount file selfPid alive now accountIndex family) accountIndex =
      some ⟨selfPid, now, family, now + RESERVATION_TTL_MS⟩ :=
    mapGet_mapSet_self _ _ _
  refine ⟨?_, ?_, ?_, ?_⟩
  · intro later
    unfold isAccountReserved
    rw [hget]
    by_cases hexp : now + RESERVATION_TTL_MS ≤ later
    · simp [hexp]
    · simp [hexp]
  · intro qPid later hq hlt
    unfold isAccountReserved
    rw [hget]
    have hq' : ¬selfPid = qPid := fun hh => hq hh.symm
    simp [Nat.not_le.mpr hlt, hq', halive]
  · intro qPid later hge
    unfold isAccountReserved
    rw [hget]
    simp [hge]
  · intro g qPid t i f h
    unfold isAccountReserved at h
    cases hg : mapGet g i with
    | none => rw [hg] at h; simp at h
    | some res =>
      rw [hg] at h
      by_cases hexp : res.expiresAt ≤ t
      · simp [hexp] at h
      · by_cases hpid : res.pid = qPid
        · simp [hexp, hpid] at h
        · by_cases ha : alive res.pid
          · exact ⟨res, rfl, by omega, hpid, ha⟩
          · simp [hexp, hpid, ha] at h

/-- Witness for C7 on a concrete reservation file. -/
def c7File : ReservationFile :=
  [(0, ⟨77, 0, .claude, 100⟩)]

def c7Alive : Nat → Bool := fun _ => true

theorem reservationBlocking_witness :
    isAccountReserved (reserveAccount c7File 42 c7Alive 1000 3 .gemini)
      42 c7Alive 1000 3 .gemini = false
    ∧ isAccountReserved (reserveAccount c7File 42 c7Alive 1000 3 .gemini)
      99 c7Alive 1000 3 .gemini = true
    ∧ isAccountReserved (reserveAccount c7File 42 c7Alive 1000 3 .gemini)
      99 c7Alive 31000 3 .gemini = false := by
  have h := reservationBlocking c7File 42 c7Alive 1000 3 .gemini rfl
  exact ⟨h.1 1000, h.2.1 99 1000 (by decide) (by decide), h.2.2.1 99 31000 (by decide)⟩

/-- C10: reserveAccount unconditionally installs the caller's
reservation at the account's key, overwriting whatever entry was there
(live or not, any family); the file keeps at most one entry per account
index, so after the call the only entry at that index is the caller's. -/
theorem reserveOverwrites (file : ReservationFile) (selfPid : Nat) (alive : Nat → Bool)
    (now : Nat) (accountIndex : Nat) (family : Family) :
    mapGet (reserveAccount file selfPid alive now accountIndex family) accountIndex =
      some ⟨selfPid, now, family, now + RESERVATION_TTL_MS⟩
    ∧ (keysNodup file → keysNodup (reserveAccount file selfPid alive now accountIndex family))
    ∧ (keysNodup file →
        ∀ p ∈ reserveAccount file selfPid alive now accountIndex family,
          p.1 = accountIndex →
          p.2 = (⟨selfPid, now, family, now + RESERVATION_TTL_MS⟩ : Reservation)) := by
  have hclean : ∀ h : keysNodup file,
      keysNodup (cleanStaleReservations file selfPid alive now) := by
    intro h
    unfold keysNodup at *
    unfold cleanStaleReservations
    exact List.Nodup.sublist ((List.filter_sublist _).map Prod.fst) h
  refine ⟨mapGet_mapSet_self _ _ _, ?_, ?_⟩
  · intro h
    exact keysNodup_mapSet _ _ _ (hclean h)
  · intro h p hp hk
    exact mapSet_entry_eq (hclean h) hp hk

/-- Witness for C10: a live, unexpired reservation owned by pid 7 for
the claude family at index 3 is replaced by pid 42's gemini
reservation. -/
def c10File : ReservationFile :=
  [(3, ⟨7, 500, .claude, 999999⟩), (4, ⟨7, 500, .claude, 999999⟩)]

theorem reserveOverwrites_witness :
    mapGet (reserveAccount c10File 42 c7Alive 1000 3 .gemini) 3 =
      some ⟨42, 1000, .gemini, 31000⟩
    ∧ keysNodup (reserveAccount c10File 42 c7Alive 1000 3 .gemini) := by
  have h := reserveOverwrites c10File 42 c7Alive 1000 3 .gemini
  exact ⟨h.1, h.2.1 (by decide)⟩

/-! ## AccountManager list surgery (plugin/accounts.js, removeAccount)

The manager state holds the account list, the shared round-robin
cursor, and the per-family current-account pointers (-1 meaning no
current account).  removeAccount takes the position of the account in
the list (the source locates it with indexOf on the object). -/

structure ManagerState where
  accounts : List ManagedAccount
  cursor : Nat
  currentClaude : Int
  currentGemini : Int
deriving DecidableEq, Repr

/-- The forEach renumbering pass: account at position i gets index i. -/
def renumberFrom (i : Nat) : List ManagedAccount → List ManagedAccount
  | [] => []
  | a :: t => { a with index := i } :: renumberFrom (i + 1) t

/-- The per-family pointer adjustment in removeAccount: pointers past
the removed position shift down one, and a pointer landing outside the
new range becomes -1. -/
def adjustFamilyPointer (idx : Nat) (newLen : Nat) (p : Int) : Int :=
  let p1 := if (idx : Int) < p then p - 1 else p
  if (newLen : Int) ≤ p1 then -1 else p1

/-- `removeAccount`: splice the account out, renumber all indices,
then fix up the cursor and both family pointers.  Returns false when
the account is not in the list. -/
def removeAccount (st : ManagerState) (idx : Nat) : Bool × ManagerState :=
  if idx < st.accounts.length then
    let accounts2 := renumberFrom 0 (st.accounts.eraseIdx idx)
    if accounts2.length = 0 then
      (true, { st with
        accounts := accounts2
        cursor := 0
        currentClaude := -1
        currentGemini := -1 })
    else
      let cursor1 := if idx < st.cursor then st.cursor - 1 else st.cursor
      (true, { st with
        accounts := accounts2
        cursor := cursor1 % accounts2.length
        currentClaude := adjustFamilyPointer idx accounts2.length st.currentClaude
        currentGemini := adjustFamilyPointer idx accounts2.length st.currentGemini })
  else (false, st)

theorem length_renumberFrom (i : Nat) (l : List ManagedAccount) :
    (renumberFrom i l).length = l.length := by
  induction l generalizing i with
  | nil => rfl
  | cons a t ih => simp [renumberFrom, ih]

theorem map_index_renumberFrom (i : Nat) (l : List ManagedAccount) :
    (renumberFrom i l).map (fun a => a.index) = List.range' i l.length := by
  induction l generalizing i with
  | nil => rfl
  | cons a t ih => simp [renumberFrom, List.range', ih]

theorem adjustFamilyPointer_spec (idx newLen : Nat) (p : Int)
    (hlow : -1 ≤ p) (hhigh : p ≤ (newLen : Int)) (hidx : idx ≤ newLen) :
    (adjustFamilyPointer idx newLen p = -1 ∨
      (0 ≤ adjustFamilyPointer idx newLen p ∧
        adjustFamilyPointer idx newLen p < (newLen : Int)))
    ∧ (adjustFamilyPointer idx newLen p = -1 ↔
        (p = -1 ∨ (p = (idx : Int) ∧ idx = newLen)))
    ∧ (p = (idx : Int) → (idx : Int) < (newLen : Int) →
        adjustFamilyPointer idx newLen p = p) := by
  simp only [adjustFamilyPointer]
  split_ifs <;> omega

/-- C3 counterexample: removing the account a family pointer points at
does not clamp the pointer to -1 when the removed position is not the
last one; the pointer keeps its numeric value and now designates the
successor account. -/
def mkPlainAccount (i : Nat) (tok : String) : ManagedAccount :=
  { index := i, email := none, refreshToken := tok, addedAt := 0, lastUsed := 0,
    rateLimitResetTimes := [], touchedForQuota := [],
    coolingDownUntil := none, cooldownReason := none }

def c3State : ManagerState :=
  { accounts := [mkPlainAccount 0 "a", mkPlainAccount 1 "b"],
    cursor := 0, currentClaude := 0, currentGemini := -1 }

theorem removeAccount_counterexample :
    c3State.currentClaude = 0
    ∧ (c3State.accounts.map (fun a => a.refreshToken))[0]? = some "a"
    ∧ (removeAccount c3State 0).2.accounts.map (fun a => a.refreshToken) = ["b"]
    ∧ (removeAccount c3State 0).2.currentClaude = 0 := by
  decide

/-- C3 (amended): removing the account at position idx from a list of
size N leaves exactly N-1 accounts whose index fields are exactly
0..N-2; the cursor lands strictly below N-1 when accounts remain and is
reset to 0 when none do; each family pointer stays -1 or lands in
[0, N-2], becomes -1 exactly when it was -1 already or pointed at the
removed account sitting at the last position, and keeps its numeric
value (now naming the successor account) when it pointed at a removed
non-last account. -/
theorem removeAccount_spec (st : ManagerState) (idx : Nat)
    (hidx : idx < st.accounts.length)
    (hc1 : -1 ≤ st.currentClaude) (hc2 : st.currentClaude ≤ (st.accounts.length : Int) - 1)
    (hg1 : -1 ≤ st.currentGemini) (hg2 : st.currentGemini ≤ (st.accounts.length : Int) - 1) :
    (removeAccount st idx).1 = true
    ∧ (removeAccount st idx).2.accounts.length = st.accounts.length - 1
    ∧ (removeAccount st idx).2.accounts.map (fun a => a.index) =
        List.range (st.accounts.length - 1)
    ∧ ((removeAccount st idx).2.accounts ≠ [] →
        (removeAccount st idx).2.cursor < st.accounts.length - 1)
    ∧ ((removeAccount st idx).2.accounts = [] →
        (removeAccount st idx).2.cursor = 0
        ∧ (removeAccount st idx).2.currentClaude = -1
        ∧ (removeAccount st idx).2.currentGemini = -1)
    ∧ ((removeAccount st idx).2.currentClaude = -1 ∨
        (0 ≤ (removeAccount st idx).2.currentClaude ∧
          (removeAccount st idx).2.currentClaude < (st.accounts.length : Int) - 1))
    ∧ ((removeAccount st idx).2.currentGemini = -1 ∨
        (0 ≤ (removeAccount st idx).2.currentGemini ∧
          (removeAccount st idx).2.currentGemini < (st.accounts.length : Int) - 1))
    ∧ ((removeAccount st idx).2.accounts ≠ [] →
        ((removeAccount st idx).2.currentClaude = -1 ↔
          (st.currentClaude = -1 ∨
            (st.currentClaude = (idx : Int) ∧ idx = st.accounts.length - 1))))
    ∧ ((removeAccount st idx).2.accounts ≠ [] →
        ((removeAccount st idx).2.currentGemini = -1 ↔
          (st.currentGemini = -1 ∨
            (st.currentGemini = (idx : Int) ∧ idx = st.accounts.length - 1))))
    ∧ ((removeAccount st idx).2.accounts ≠ [] → st.currentClaude = (idx : Int) →
        idx < st.accounts.length - 1 →
        (removeAccount st idx).2.currentClaude = (idx : Int))
    ∧ ((removeAccount st idx).2.accounts ≠ [] → st.currentGemini = (idx : Int) →
        idx < st.accounts.length - 1 →
        (removeAccount st idx).2.currentGemini = (idx : Int)) := by
  have hlen2 : (renumberFrom 0 (st.accounts.eraseIdx idx)).length = st.accounts.length - 1 := by
    rw [length_renumberFrom]
    exact List.length_eraseIdx_of_lt hidx
  by_cases hone : st.accounts.length = 1
  · have heq : removeAccount st idx =
        (true, { st with
          accounts := renumberFrom 0 (st.accounts.eraseIdx idx)
          cursor := 0
          currentClaude := -1
          currentGemini := -1 }) := by
      have hz : (renumberFrom 0 (st.accounts.eraseIdx idx)).length = 0 := by omega
      simp only [removeAccount]
      rw [if_pos hidx, if_pos hz]
    have hnil : renumberFrom 0 (st.accounts.eraseIdx idx) = [] := by
      rw [← List.length_eq_zero, hlen2, hone]
    rw [heq, hnil]
    refine ⟨rfl, by simp [hone], by simp [hone], fun h => absurd rfl h,
      fun _ => ⟨rfl, rfl, rfl⟩, Or.inl rfl, Or.inl rfl, fun h => absurd rfl h,
      fun h => absurd rfl h, fun h => absurd rfl h, fun h => absurd rfl h⟩
  · have hzne : ¬(renumberFrom 0 (st.accounts.eraseIdx idx)).length = 0 := by omega
    have heq : removeAccount st idx =
        (true, { st with
          accounts := renumberFrom 0 (st.accounts.eraseIdx idx)
          cursor := (if idx < st.cursor then st.cursor - 1 else st.cursor) %
            (renumberFrom 0 (st.accounts.eraseIdx idx)).length
          currentClaude := adjustFamilyPointer idx
            (renumberFrom 0 (st.accounts.eraseIdx idx)).length st.currentClaude
          currentGemini := adjustFamilyPointer idx
            (renumberFrom 0 (st.accounts.eraseIdx idx)).length st.currentGemini }) := by
      simp only [removeAccount]
      rw [if_pos hidx, if_neg hzne]
    set L := renumberFrom 0 (st.accounts.eraseIdx idx) with hLdef
    have hr1 : (removeAccount st idx).1 = true := by rw [heq]
    have ha : (removeAccount st idx).2.accounts = L := by rw [heq]
    have hcur : (removeAccount st idx).2.cursor =
        (if idx < st.cursor then st.cursor - 1 else st.cursor) % L.length := by rw [heq]
    have hcc : (removeAccount st idx).2.currentClaude =
        adjustFamilyPointer idx L.length st.currentClaude := by rw [heq]
    have hcg : (removeAccount st idx).2.currentGemini =
        adjustFamilyPointer idx L.length st.currentGemini := by rw [heq]
    have hcast : ((L.length : Nat) : Int) = (st.accounts.length : Int) - 1 := by omega
    have hhc : st.currentClaude ≤ (L.length : Int) := by omega
    have hhg : st.currentGemini ≤ (L.length : Int) := by omega
    have hidxle : idx ≤ L.length := by omega
    have hsc := adjustFamilyPointer_spec idx L.length st.currentClaude hc1 hhc hidxle
    have hsg := adjustFamilyPointer_spec idx L.length st.currentGemini hg1 hhg hidxle
    rw [hr1, ha, hcur, hcc, hcg]
    refine ⟨rfl, hlen2, ?_, ?_, ?_, ?_, ?_, ?_, ?_, ?_, ?_⟩
    · rw [hLdef, map_index_renumberFrom, List.length_eraseIdx_of_lt hidx,
        List.range_eq_range']
    · intro _
      have hpos : 0 < L.length := by omega
      have hmod := Nat.mod_lt (if idx < st.cursor then st.cursor - 1 else st.cursor) hpos
      omega
    · intro h
      exfalso
      rw [h] at hlen2
      simp at hlen2
      omega
    · rcases hsc.1 with h | h
      · exact Or.inl h
      · exact Or.inr ⟨h.1, by omega⟩
    · rcases hsg.1 with h | h
      · exact Or.inl h
      · exact Or.inr ⟨h.1, by omega⟩
    · intro _
      exact hsc.2.1.trans (by rw [hlen2])
    · intro _
      exact hsg.2.1.trans (by rw [hlen2])
    · intro _ hp hlt
      have := hsc.2.2 hp (by omega)
      rw [this, hp]
    · intro _ hp hlt
      have := hsg.2.2 hp (by omega)
      rw [this, hp]

/-- Witness for C3 (amended): removing the middle of three accounts. -/
def c3BigState : ManagerState :=
  { accounts := [mkPlainAccount 0 "a", mkPlainAccount 1 "b", mkPlainAccount 2 "c"],
    cursor := 2, currentClaude := 2, currentGemini := 1 }

theorem removeAccount_spec_witness :
    (removeAccount c3BigState 1).2.accounts.map (fun a => a.index) = List.range 2
    ∧ (removeAccount c3BigState 1).2.cursor < 2 := by
  have h := removeAccount_spec c3BigState 1 (by decide) (by decide) (by decide)
    (by decide) (by decide)
  exact ⟨h.2.2.1, h.2.2.2.1 (by decide)⟩

/-! ## Versioned account store (plugin/storage.ts)

A stored account record (schema v3).  `refreshToken` is `none` when the
JSON field is missing or not a string; a v3 rate-limit map that is
absent serialises the same as an empty one and is modelled as `[]`.
The device-fingerprint field and its version-comparison merge policy
are independent of every field modelled here and are omitted. -/

structure StoredAccount where
  email : Option String
  refreshToken : Option String
  projectId : Option String
  managedProjectId : Option String
  addedAt : Nat
  lastUsed : Nat
  lastSwitchReason : Option String
  rateLimitResetTimes : List (String × Nat)
  coolingDownUntil : Option Nat
  cooldownReason : Option String
deriving DecidableEq, Repr

structure AccountStorage where
  accounts : List StoredAccount
  activeIndex : Int
  activeClaude : Option Int
  activeGemini : Option Int
deriving DecidableEq, Repr

/-- The JS object spread pair for the two rate-limit maps: every entry
of the incoming map is written over the existing map, so incoming wins
on quota keys present in both. -/
def spreadMerge (e a : List (String × Nat)) : List (String × Nat) :=
  a.foldl (fun acc p => mapSet acc p.1 p.2) e

/-- Per-account merge in mergeAccountStorage: incoming fields override,
except the project ids keep the existing value when incoming lacks one,
the rate-limit maps are spread together, and lastUsed takes the max. -/
def mergeStoredAccount (existingAcc acc : StoredAccount) : StoredAccount :=
  { acc with
    projectId := match acc.projectId with
      | some v => some v
      | none => existingAcc.projectId
    managedProjectId := match acc.managedProjectId with
      | some v => some v
      | none => existingAcc.managedProjectId
    rateLimitResetTimes := spreadMerge existingAcc.rateLimitResetTimes acc.rateLimitResetTimes
    lastUsed := max existingAcc.lastUsed acc.lastUsed }

/-- First loop of mergeAccountStorage: keys every existing account with
a truthy (non-empty) refresh token into the map. -/
def insertExisting (m : List (String × StoredAccount)) (acc : StoredAccount) :
    List (String × StoredAccount) :=
  match acc.refreshToken with
  | some tok => if tok ≠ "" then mapSet m tok acc else m
  | none => m

/-- Second loop of mergeAccountStorage: incoming accounts are merged
into the keyed map when the token is already present, inserted
otherwise. -/
def insertIncoming (m : List (String × StoredAccount)) (acc : StoredAccount) :
    List (String × StoredAccount) :=
  match acc.refreshToken with
  | some tok =>
    if tok ≠ "" then
      match mapGet m tok with
      | some existingAcc => mapSet m tok (mergeStoredAccount existingAcc acc)
      | none => mapSet m tok acc
    else m
  | none => m

/-- `mergeAccountStorage`: deduplicates by refresh token, merging
matched accounts field-by-field; the active indices come from the
incoming side. -/
def mergeAccountStorage (existing incoming : AccountStorage) : AccountStorage :=
  let m1 := existing.accounts.foldl insertExisting []
  let m2 := incoming.accounts.foldl insertIncoming m1
  { accounts := m2.map Prod.snd
    activeIndex := incoming.activeIndex
    activeClaude := incoming.activeClaude
    activeGemini := incoming.activeGemini }

/-- The rate-limit map a storage state holds for the account with the
given refresh token. -/
def accountRateLimitMap (s : AccountStorage) (tok : String) :
    Option (List (String × Nat)) :=
  (s.accounts.find? (fun a => decide (a.refreshToken = some tok))).map
    (fun a => a.rateLimitResetTimes)

/-- The truthy refresh tokens of an account list, in order. -/
def truthyTokens (l : List StoredAccount) : List String :=
  l.filterMap (fun a =>
    match a.refreshToken with
    | some tok => if tok = "" then none else some tok
    | none => none)

def findByToken (l : List StoredAccount) (tok : String) : Option StoredAccount :=
  l.find? (fun a => decide (a.refreshToken = some tok))

/-- C1 counterexample: two storage states holding different reset times
for the same quota key of the same account merge to different rate-limit
maps depending on the order: the incoming side wins, so the merge is not
commutative. -/
def c1Account (resetAt : Nat) : StoredAccount :=
  { email := none, refreshToken := some "t", projectId := none, managedProjectId := none,
    addedAt := 0, lastUsed := 0, lastSwitchReason := none,
    rateLimitResetTimes := [("claude", resetAt)],
    coolingDownUntil := none, cooldownReason := none }

def c1StateA : AccountStorage :=
  { accounts := [c1Account 100], activeIndex := 0, activeClaude := none, activeGemini := none }

def c1StateB : AccountStorage :=
  { accounts := [c1Account 200], activeIndex := 0, activeClaude := none, activeGemini := none }

theorem mergeStorage_counterexample :
    (accountRateLimitMap (mergeAccountStorage c1StateA c1StateB) "t").map
        (fun m => mapGet m "claude") = some (some 200)
    ∧ (accountRateLimitMap (mergeAccountStorage c1StateB c1StateA) "t").map
        (fun m => mapGet m "claude") = some (some 100)
    ∧ accountRateLimitMap (mergeAccountStorage c1StateA c1StateB) "t" ≠
        accountRateLimitMap (mergeAccountStorage c1StateB c1StateA) "t" := by
  decide

theorem mapGet_spreadMerge (f : List (String × Nat)) (hf : keysNodup f) :
    ∀ (e : List (String × Nat)) (k : String),
      mapGet (spreadMerge e f) k =
        match mapGet f k with
        | some v => some v
        | none => mapGet e k := by
  induction f with
  | nil => intro e k; rfl
  | cons p t ih =>
    intro e k
    unfold keysNodup at hf
    simp only [List.map_cons, List.nodup_cons] at hf
    have hstep : spreadMerge e (p :: t) = spreadMerge (mapSet e p.1 p.2) t := rfl
    rw [hstep, ih hf.2]
    by_cases hk : p.1 = k
    · have hnone : mapGet t k = none :=
        mapGet_eq_none_of_not_mem_keys _ _ (hk ▸ hf.1)
      rw [hnone]
      subst hk
      simp [mapGet, mapGet_mapSet_self]
    · rw [mapGet_mapSet_ne e p.1 k p.2 (fun hh => hk hh.symm)]
      simp [mapGet, hk]

theorem foldl_insertExisting_notin (tok : String) :
    ∀ (l : List StoredAccount), tok ∉ truthyTokens l →
      ∀ m, mapGet (l.foldl insertExisting m) tok = mapGet m tok := by
  intro l
  induction l with
  | nil => intro _ m; rfl
  | cons a t ih =>
    intro h m
    cases hr : a.refreshToken with
    | none =>
      have ht : tok ∉ truthyTokens t := by
        simpa [truthyTokens, List.filterMap_cons, hr] using h
      simpa [insertExisting, hr] using ih ht _
    | some s =>
      by_cases hs : s = ""
      · have ht : tok ∉ truthyTokens t := by
          simpa [truthyTokens, List.filterMap_cons, hr, hs] using h
        simpa [insertExisting, hr, hs] using ih ht _
      · have h' : ¬(tok = s ∨ tok ∈ truthyTokens t) := by
          simpa [truthyTokens, List.filterMap_cons, hr, hs] using h
        push_neg at h'
        have hstep : (insertExisting m a) = mapSet m s a := by
          simp [insertExisting, hr, hs]
        rw [List.foldl_cons, hstep, ih h'.2, mapGet_mapSet_ne m s tok a h'.1]

theorem foldl_insertIncoming_notin (tok : String) :
    ∀ (l : List StoredAccount), tok ∉ truthyTokens l →
      ∀ m, mapGet (l.foldl insertIncoming m) tok = mapGet m tok := by
  intro l
  induction l with
  | nil => intro _ m; rfl
  | cons a t ih =>
    intro h m
    cases hr : a.refreshToken with
    | none =>
      have ht : tok ∉ truthyTokens t := by
        simpa [truthyTokens, List.filterMap_cons, hr] using h
      simpa [insertIncoming, hr] using ih ht _
    | some s =>
      by_cases hs : s = ""
      · have ht : tok ∉ truthyTokens t := by
          simpa [truthyTokens, List.filterMap_cons, hr, hs] using h
        simpa [insertIncoming, hr, hs] using ih ht _
      · have h' : ¬(tok = s ∨ tok ∈ truthyTokens t) := by
          simpa [truthyTokens, List.filterMap_cons, hr, hs] using h
        push_neg at h'
        cases hm : mapGet m s with
        | some ex =>
          have hstep : (insertIncoming m a) = mapSet m s (mergeStoredAccount ex a) := by
            simp [insertIncoming, hr, hs, hm]
          rw [List.foldl_cons, hstep, ih h'.2, mapGet_mapSet_ne m s tok _ h'.1]
        | none =>
          have hstep : (insertIncoming m a) = mapSet m s a := by
            simp [insertIncoming, hr, hs, hm]
          rw [List.foldl_cons, hstep, ih h'.2, mapGet_mapSet_ne m s tok a h'.1]

theorem foldl_insertExisting_get (tok : String) (htok : tok ≠ "") :
    ∀ (l : List StoredAccount), (truthyTokens l).Nodup →
      ∀ m, mapGet (l.foldl insertExisting m) tok =
        match findByToken l tok with
        | some a => some a
        | none => mapGet m tok := by
  intro l
  induction l with
  | nil => intro _ m; rfl
  | cons a t ih =>
    intro hnd m
    cases hr : a.refreshToken with
    | none =>
      have hnd' : (truthyTokens t).Nodup := by
        simpa [truthyTokens, List.filterMap_cons, hr] using hnd
      have hfind : findByToken (a :: t) tok = findByToken t tok := by
        simp [findByToken, List.find?_cons, hr]
      rw [hfind, List.foldl_cons]
      have : insertExisting m a = m := by simp [insertExisting, hr]
      rw [this, ih hnd' m]
    | some s =>
      by_cases hs : s = ""
      · have hnd' : (truthyTokens t).Nodup := by
          simpa [truthyTokens, List.filterMap_cons, hr, hs] using hnd
        have hfind : findByToken (a :: t) tok = findByToken t tok := by
          have : ¬a.refreshToken = some tok := by
            rw [hr, hs]
            intro hh
            exact htok (Option.some.inj hh).symm
          simp [findByToken, List.find?_cons, this]
        rw [hfind, List.foldl_cons]
        have : insertExisting m a = m := by simp [insertExisting, hr, hs]
        rw [this, ih hnd' m]
      · have hcons : truthyTokens (a :: t) = s :: truthyTokens t := by
          simp [truthyTokens, List.filterMap_cons, hr, hs]
        rw [hcons, List.nodup_cons] at hnd
        have hstep : insertExisting m a = mapSet m s a := by
          simp [insertExisting, hr, hs]
        rw [List.foldl_cons, hstep]
        by_cases hst : s = tok
        · have hfind : findByToken (a :: t) tok = some a := by
            simp [findByToken, List.find?_cons, hr, hst]
          rw [hfind, foldl_insertExisting_notin tok t (hst ▸ hnd.1) _, hst,
            mapGet_mapSet_self]
        · have hfind : findByToken (a :: t) tok = findByToken t tok := by
            have : ¬a.refreshToken = some tok := by
              rw [hr]
              intro hh
              exact hst (Option.some.inj hh)
            simp [findByToken, List.find?_cons, this]
          rw [hfind, ih hnd.2 _, mapGet_mapSet_ne m s tok a (fun hh => hst hh.symm)]

theorem foldl_insertIncoming_get (tok : String) (htok : tok ≠ "") :
    ∀ (l : List StoredAccount), (truthyTokens l).Nodup →
      ∀ m, mapGet (l.foldl insertIncoming m) tok =
        match findByToken l tok with
        | some a =>
          some (match mapGet m tok with
                | some ex => mergeStoredAccount ex a
                | none => a)
        | none => mapGet m tok := by
  intro l
  induction l with
  | nil => intro _ m; rfl
  | cons a t ih =>
    intro hnd m
    cases hr : a.refreshToken with
    | none =>
      have hnd' : (truthyTokens t).Nodup := by
        simpa [truthyTokens, List.filterMap_cons, hr] using hnd
      have hfind : findByToken (a :: t) tok = findByToken t tok := by
        simp [findByToken, List.find?_cons, hr]
      rw [hfind, List.foldl_cons]
      have : insertIncoming m a = m := by simp [insertIncoming, hr]
      rw [this, ih hnd' m]
    | some s =>
      by_cases hs : s = ""
      · have hnd' : (truthyTokens t).Nodup := by
          simpa [truthyTokens, List.filterMap_cons, hr, hs] using hnd
        have hfind : findByToken (a :: t) tok = findByToken t tok := by
          have : ¬a.refreshToken = some tok := by
            rw [hr, hs]
            intro hh
            exact htok (Option.some.inj hh).symm
          simp [findByToken, List.find?_cons, this]
        rw [hfind, List.foldl_cons]
        have : insertIncoming m a = m := by simp [insertIncoming, hr, hs]
        rw [this, ih hnd' m]
      · have hcons : truthyTokens (a :: t) = s :: truthyTokens t := by
          simp [truthyTokens, List.filterMap_cons, hr, hs]
        rw [hcons, List.nodup_cons] at hnd
        by_cases hst : s = tok
        · have hfind : findByToken (a :: t) tok = some a := by
            simp [findByToken, List.find?_cons, hr, hst]
          rw [hfind]
          cases hm : mapGet m tok with
          | some ex =>
            have hstep : insertIncoming m a = mapSet m tok (mergeStoredAccount ex a) := by
              simp [insertIncoming, hr, hs, hst, hm, htok]
            rw [List.foldl_cons, hstep, foldl_insertIncoming_notin tok t (hst ▸ hnd.1) _,
              mapGet_mapSet_self]
          | none =>
            have hstep : insertIncoming m a = mapSet m tok a := by
              simp [insertIncoming, hr, hs, hst, hm, htok]
            rw [List.foldl_cons, hstep, foldl_insertIncoming_notin tok t (hst ▸ hnd.1) _,
              mapGet_mapSet_self]
        · have hfind : findByToken (a :: t) tok = findByToken t tok := by
            have : ¬a.refreshToken = some tok := by
              rw [hr]
              intro hh
              exact hst (Option.some.inj hh)
            simp [findByToken, List.find?_cons, this]
          rw [hfind]
          cases hm : mapGet m s with
          | some ex =>
            have hstep : insertIncoming m a = mapSet m s (mergeStoredAccount ex a) := by
              simp [insertIncoming, hr, hs, hm]
            rw [List.foldl_cons, hstep, ih hnd.2 _,
              mapGet_mapSet_ne m s tok _ (fun hh => hst hh.symm)]
          | none =>
            have hstep : insertIncoming m a = mapSet m s a := by
              simp [insertIncoming, hr, hs, hm]
            rw [List.foldl_cons, hstep, ih hnd.2 _,
              mapGet_mapSet_ne m s tok a (fun hh => hst hh.symm)]

theorem mergeStoredAccount_refreshToken (e a : StoredAccount) :
    (mergeStoredAccount e a).refreshToken = a.refreshToken := rfl

theorem mergeStoredAccount_rateLimits (e a : StoredAccount) :
    (mergeStoredAccount e a).rateLimitResetTimes =
      spreadMerge e.rateLimitResetTimes a.rateLimitResetTimes := rfl

theorem insertExisting_coh {m : List (String × StoredAccount)} {acc : StoredAccount}
    (h : ∀ p ∈ m, p.2.refreshToken = some p.1) :
    ∀ p ∈ insertExisting m acc, p.2.refreshToken = some p.1 := by
  intro p hp
  cases hr : acc.refreshToken with
  | none =>
    simp only [insertExisting, hr] at hp
    exact h p hp
  | some s =>
    simp only [insertExisting, hr] at hp
    by_cases hs : s = ""
    · rw [if_neg (by simp [hs])] at hp
      exact h p hp
    · rw [if_pos hs] at hp
      rcases mem_mapSet hp with hin | heq
      · exact h p hin
      · rw [heq]
        exact hr
theorem insertIncoming_coh {m : List (String × StoredAccount)} {acc : StoredAccount}
    (h : ∀ p ∈ m, p.2.refreshToken = some p.1) :
    ∀ p ∈ insertIncoming m acc, p.2.refreshToken = some p.1 := by
  intro p hp
  cases hr : acc.refreshToken with
  | none =>
    simp only [insertIncoming, hr] at hp
    exact h p hp
  | some s =>
    simp only [insertIncoming, hr] at hp
    by_cases hs : s = ""
    · rw [if_neg (by simp [hs])] at hp
      exact h p hp
    · rw [if_pos hs] at hp
      cases hm : mapGet m s with
      | some ex =>
        rw [hm] at hp
        rcases mem_mapSet hp with hin | heq
        · exact h p hin
        · rw [heq]
          simpa [mergeStoredAccount_refreshToken] using hr
      | none =>
        rw [hm] at hp
        rcases mem_mapSet hp with hin | heq
        · exact h p hin
        · rw [heq]
          exact hr

theorem foldl_insertExisting_coh (l : List StoredAccount) :
    ∀ (m : List (String × StoredAccount)), (∀ p ∈ m, p.2.refreshToken = some p.1) →
      ∀ p ∈ l.foldl insertExisting m, p.2.refreshToken = some p.1 := by
  induction l with
  | nil => intro m h; exact h
  | cons a t ih =>
    intro m h
    exact ih _ (insertExisting_coh h)

theorem foldl_insertIncoming_coh (l : List StoredAccount) :
    ∀ (m : List (String × StoredAccount)), (∀ p ∈ m, p.2.refreshToken = some p.1) →
      ∀ p ∈ l.foldl insertIncoming m, p.2.refreshToken = some p.1 := by
  induction l with
  | nil => intro m h; exact h
  | cons a t ih =>
    intro m h
    exact ih _ (insertIncoming_coh h)

theorem find_values_eq_mapGet (tok : String) :
    ∀ (m : List (String × StoredAccount)), (∀ p ∈ m, p.2.refreshToken = some p.1) →
      (m.map Prod.snd).find? (fun a => decide (a.refreshToken = some tok)) = mapGet m tok := by
  intro m
  induction m with
  | nil => intro _; rfl
  | cons p t ih =>
    intro h
    have hp : p.2.refreshToken = some p.1 := h p (List.mem_cons_self _ _)
    by_cases hk : p.1 = tok
    · simp [List.find?_cons, mapGet, hp, hk]
    · have hne : ¬p.2.refreshToken = some tok := by
        rw [hp]
        intro hh
        exact hk (Option.some.inj hh)
      have ht := ih (fun q hq => h q (List.mem_cons_of_mem _ hq))
      simp [List.find?_cons, mapGet, hne, hk, ht]

/-- Lookup characterisation of the directed merge: when the token names
one account on each side, the merged storage holds exactly the
field-merged account for it. -/
theorem mergeStorage_lookup (X Y : AccountStorage) (tok : String) (htok : tok ≠ "")
    (hX : (truthyTokens X.accounts).Nodup) (hY : (truthyTokens Y.accounts).Nodup)
    (x y : StoredAccount)
    (hfx : findByToken X.accounts tok = some x)
    (hfy : findByToken Y.accounts tok = some y) :
    accountRateLimitMap (mergeAccountStorage X Y) tok =
      some (spreadMerge x.rateLimitResetTimes y.rateLimitResetTimes) := by
  have hm1 : mapGet (X.accounts.foldl insertExisting []) tok = some x := by
    rw [foldl_insertExisting_get tok htok X.accounts hX [], hfx]
  have hm2 : mapGet (Y.accounts.foldl insertIncoming
      (X.accounts.foldl insertExisting [])) tok = some (mergeStoredAccount x y) := by
    rw [foldl_insertIncoming_get tok htok Y.accounts hY _, hfy, hm1]
  have hcoh : ∀ p ∈ Y.accounts.foldl insertIncoming (X.accounts.foldl insertExisting []),
      p.2.refreshToken = some p.1 :=
    foldl_insertIncoming_coh Y.accounts _
      (foldl_insertExisting_coh X.accounts [] (by intro p hp; simp at hp))
  show (List.find? (fun a => decide (a.refreshToken = some tok))
      ((Y.accounts.foldl insertIncoming (X.accounts.foldl insertExisting [])).map
        Prod.snd)).map (fun a => a.rateLimitResetTimes) = _
  rw [find_values_eq_mapGet tok _ hcoh, hm2]
  rfl

/-- C1 (amended): the save merge unions the two rate-limit maps with
the incoming side winning on shared quota keys; for an account present
in both states it is order-independent exactly on maps that agree on
every shared key — the two merge orders then produce the same
key-to-reset-time mapping — while conflicting shared keys make it order
dependent (see the counterexample). -/
theorem mergeStorage_comm (A B : AccountStorage) (tok : String) (htok : tok ≠ "")
    (hA : (truthyTokens A.accounts).Nodup) (hB : (truthyTokens B.accounts).Nodup)
    (a b : StoredAccount)
    (hfa : findByToken A.accounts tok = some a)
    (hfb : findByToken B.accounts tok = some b)
    (hka : keysNodup a.rateLimitResetTimes) (hkb : keysNodup b.rateLimitResetTimes)
    (hagree : ∀ k v1 v2, mapGet a.rateLimitResetTimes k = some v1 →
        mapGet b.rateLimitResetTimes k = some v2 → v1 = v2) :
    accountRateLimitMap (mergeAccountStorage A B) tok =
        some (spreadMerge a.rateLimitResetTimes b.rateLimitResetTimes)
    ∧ accountRateLimitMap (mergeAccountStorage B A) tok =
        some (spreadMerge b.rateLimitResetTimes a.rateLimitResetTimes)
    ∧ ∀ k, mapGet (spreadMerge a.rateLimitResetTimes b.rateLimitResetTimes) k =
        mapGet (spreadMerge b.rateLimitResetTimes a.rateLimitResetTimes) k := by
  refine ⟨mergeStorage_lookup A B tok htok hA hB a b hfa hfb,
    mergeStorage_lookup B A tok htok hB hA b a hfb hfa, ?_⟩
  intro k
  rw [mapGet_spreadMerge b.rateLimitResetTimes hkb _ k,
    mapGet_spreadMerge a.rateLimitResetTimes hka _ k]
  cases ha : mapGet a.rateLimitResetTimes k with
  | none =>
    cases hb : mapGet b.rateLimitResetTimes k with
    | none => rfl
    | some vb => rfl
  | some va =>
    cases hb : mapGet b.rateLimitResetTimes k with
    | none => rfl
    | some vb =>
      simpa using (hagree k va vb ha hb).symm

/-- Witness for C1 (amended) on two states whose maps share the key
"claude" with equal values and differ on the rest. -/
def c1WAccountA : StoredAccount :=
  { email := none, refreshToken := some "t", projectId := none, managedProjectId := none,
    addedAt := 0, lastUsed := 0, lastSwitchReason := none,
    rateLimitResetTimes := [("claude", 100), ("gemini-cli", 50)],
    coolingDownUntil := none, cooldownReason := none }

def c1WAccountB : StoredAccount :=
  { email := none, refreshToken := some "t", projectId := none, managedProjectId := none,
    addedAt := 0, lastUsed := 0, lastSwitchReason := none,
    rateLimitResetTimes := [("claude", 100), ("gemini-antigravity", 70)],
    coolingDownUntil := none, cooldownReason := none }

def c1WStateA : AccountStorage :=
  { accounts := [c1WAccountA], activeIndex := 0, activeClaude := none, activeGemini := none }

def c1WStateB : AccountStorage :=
  { accounts := [c1WAccountB], activeIndex := 0, activeClaude := none, activeGemini := none }

theorem mergeStorage_comm_witness :
    accountRateLimitMap (mergeAccountStorage c1WStateA c1WStateB) "t" =
        some (spreadMerge c1WAccountA.rateLimitResetTimes c1WAccountB.rateLimitResetTimes)
    ∧ ∀ k, mapGet (spreadMerge c1WAccountA.rateLimitResetTimes
          c1WAccountB.rateLimitResetTimes) k =
        mapGet (spreadMerge c1WAccountB.rateLimitResetTimes
          c1WAccountA.rateLimitResetTimes) k := by
  have hagree : ∀ k v1 v2, mapGet c1WAccountA.rateLimitResetTimes k = some v1 →
      mapGet c1WAccountB.rateLimitResetTimes k = some v2 → v1 = v2 := by
    intro k v1 v2 h1 h2
    by_cases hc : ("claude" : String) = k
    · simp [c1WAccountA, c1WAccountB, mapGet, hc] at h1 h2
      omega
    · by_cases hg : ("gemini-cli" : String) = k
      · have hga : ¬("gemini-antigravity" : String) = k := by
          rw [← hg]
          decide
        simp [c1WAccountB, mapGet, hc, hga] at h2
      · simp [c1WAccountA, mapGet, hc, hg] at h1
  have h := mergeStorage_comm c1WStateA c1WStateB "t" (by decide) (by decide) (by decide)
    c1WAccountA c1WAccountB (by decide) (by decide) (by decide) (by decide) hagree
  exact ⟨h.1, h.2.2⟩

/-! ## Loading and email deduplication (plugin/storage.ts, loadAccounts)

`deduplicateAccountsByEmail` makes two passes: a scan that records, per
(truthy) email, the index of the newest record seen so far — the source
stores the index and re-reads `accounts[existingIndex]`; since the list
is not modified during the scan, the record is carried here alongside
its index — plus the set of indices of records without an email; then a
positional pass that keeps exactly the recorded indices in order. -/

/-- JS truthiness of the email field: missing or empty means no email. -/
def emailKeyOf (a : StoredAccount) : Option String :=
  match a.email with
  | some s => if s = "" then none else some s
  | none => none

/-- The newest-record comparison: higher lastUsed wins, addedAt breaks
ties. -/
def isNewerStored (curr exist : StoredAccount) : Bool :=
  decide (curr.lastUsed > exist.lastUsed ∨
    (curr.lastUsed = exist.lastUsed ∧ curr.addedAt > exist.addedAt))

abbrev ScanState : Type := List (String × (Nat × StoredAccount)) × List Nat

/-- One step of the first pass over the record at position i. -/
def scanStep (st : ScanState) (i : Nat) (acc : StoredAccount) : ScanState :=
  match emailKeyOf acc with
  | none => (st.1, st.2 ++ [i])
  | some e =>
    match mapGet st.1 e with
    | none => (mapSet st.1 e (i, acc), st.2)
    | some jp => if isNewerStored acc jp.2 then (mapSet st.1 e (i, acc), st.2) else st

def dedupScan : List StoredAccount → Nat → ScanState → ScanState
  | [], _, st => st
  | acc :: rest, i, st => dedupScan rest (i + 1) (scanStep st i acc)

/-- The second pass: keep the records whose position is in the keep
set, preserving order. -/
def collectKept : List StoredAccount → Nat → List Nat → List StoredAccount
  | [], _, _ => []
  | acc :: rest, i, keep =>
    if i ∈ keep then acc :: collectKept rest (i + 1) keep
    else collectKept rest (i + 1) keep

def deduplicateAccountsByEmail (accounts : List StoredAccount) : List StoredAccount :=
  let st := dedupScan accounts 0 ([], [])
  let keep := st.2 ++ st.1.map (fun p => p.2.1)
  collectKept accounts 0 keep

/-- `loadAccounts` on a version-3 document: drop records whose
refreshToken is not a string, deduplicate by email, clamp the active
index into range.  (The returned document carries no per-family
indices.) -/
def loadAccountsV3 (data : AccountStorage) : AccountStorage :=
  let validAccounts := data.accounts.filter (fun a => a.refreshToken.isSome)
  let dedup := deduplicateAccountsByEmail validAccounts
  let activeIndex :=
    if dedup.length > 0 then max (min data.activeIndex ((dedup.length : Int) - 1)) 0 else 0
  { accounts := dedup
    activeIndex := activeIndex
    activeClaude := none
    activeGemini := none }

/-- C8 counterexample: a record whose refreshToken is the empty string
is kept by loadAccounts (the filter only requires the field to be a
string), and two records whose emails differ only by letter case are
both kept (deduplication matches emails exactly, with no
normalisation). -/
def c8EmptyTok : StoredAccount :=
  { email := some "A@x.com", refreshToken := some "", projectId := none,
    managedProjectId := none, addedAt := 1, lastUsed := 0, lastSwitchReason := none,
    rateLimitResetTimes := [], coolingDownUntil := none, cooldownReason := none }

def c8LowerTok : StoredAccount :=
  { email := some "a@x.com", refreshToken := some "tok", projectId := none,
    managedProjectId := none, addedAt := 2, lastUsed := 0, lastSwitchReason := none,
    rateLimitResetTimes := [], coolingDownUntil := none, cooldownReason := none }

def c8Storage : AccountStorage :=
  { accounts := [c8EmptyTok, c8LowerTok], activeIndex := 0,
    activeClaude := none, activeGemini := none }

theorem loadAccounts_counterexample :
    (loadAccountsV3 c8Storage).accounts = [c8EmptyTok, c8LowerTok]
    ∧ c8EmptyTok.refreshToken = some ""
    ∧ c8EmptyTok.email = some "A@x.com" ∧ c8LowerTok.email = some "a@x.com" := by
  decide

theorem isNewerStored_irrefl (a : StoredAccount) : isNewerStored a a = false := by
  simp only [isNewerStored, decide_eq_false_iff_not]
  omega

theorem isNewerStored_trans_not (x w a : StoredAccount)
    (h1 : isNewerStored x w = false) (h2 : isNewerStored a w = true) :
    isNewerStored x a = false := by
  simp only [isNewerStored, decide_eq_false_iff_not, decide_eq_true_eq] at *
  omega

theorem mem_collectKept :
    ∀ (l : List StoredAccount) (i : Nat) (keep : List Nat) (x : StoredAccount),
      x ∈ collectKept l i keep ↔
        ∃ off, off < l.length ∧ (i + off) ∈ keep ∧ l[off]? = some x := by
  intro l
  induction l with
  | nil =>
    intro i keep x
    simp [collectKept]
  | cons a rest ih =>
    intro i keep x
    constructor
    · intro hx
      unfold collectKept at hx
      by_cases hk : i ∈ keep
      · rw [if_pos hk] at hx
        rcases List.mem_cons.mp hx with hx | hx
        · exact ⟨0, by simp, by simpa using hk, by simp [hx]⟩
        · obtain ⟨off, hlt, hkp, hget⟩ := (ih (i + 1) keep x).mp hx
          refine ⟨off + 1, by simpa using hlt, ?_, by simpa using hget⟩
          rw [show i + (off + 1) = i + 1 + off by omega]
          exact hkp
      · rw [if_neg hk] at hx
        obtain ⟨off, hlt, hkp, hget⟩ := (ih (i + 1) keep x).mp hx
        refine ⟨off + 1, by simpa using hlt, ?_, by simpa using hget⟩
        rw [show i + (off + 1) = i + 1 + off by omega]
        exact hkp
    · rintro ⟨off, hlt, hkp, hget⟩
      unfold collectKept
      cases off with
      | zero =>
        simp only [List.getElem?_cons_zero, Option.some.injEq] at hget
        have hik : i ∈ keep := by simpa using hkp
        rw [if_pos hik, hget]
        exact List.mem_cons_self _ _
      | succ o =>
        have hkp' : i + 1 + o ∈ keep := by
          rw [show i + 1 + o = i + (o + 1) by omega]
          exact hkp
        have hget' : rest[o]? = some x := by simpa using hget
        have hmem : x ∈ collectKept rest (i + 1) keep :=
          (ih (i + 1) keep x).mpr ⟨o, by simpa using hlt, hkp', hget'⟩
        by_cases hk : i ∈ keep
        · rw [if_pos hk]
          exact List.mem_cons_of_mem _ hmem
        · rw [if_neg hk]
          exact hmem

/-- Invariant of the first deduplication pass after processing the
records before position i: the no-email list holds exactly those
positions; the map holds, per email, one processed position whose
record no other processed record with that email strictly beats. -/
def ScanInv (all : List StoredAccount) (i : Nat) (st : ScanState) : Prop :=
  (∀ j ∈ st.2, j < i ∧ ∃ rec, all[j]? = some rec ∧ emailKeyOf rec = none)
  ∧ (∀ j rec, j < i → all[j]? = some rec → emailKeyOf rec = none → j ∈ st.2)
  ∧ (∀ e jp, mapGet st.1 e = some jp →
      jp.1 < i ∧ all[jp.1]? = some jp.2 ∧ emailKeyOf jp.2 = some e ∧
        ∀ j rec, j < i → all[j]? = some rec → emailKeyOf rec = some e →
          isNewerStored rec jp.2 = false)
  ∧ (∀ e j rec, j < i → all[j]? = some rec → emailKeyOf rec = some e →
      (mapGet st.1 e).isSome = true)
  ∧ keysNodup st.1

theorem scanInv_base (all : List StoredAccount) : ScanInv all 0 ([], []) := by
  refine ⟨?_, ?_, ?_, ?_, ?_⟩
  · intro j hj
    simp at hj
  · intro j rec hj
    omega
  · intro e jp hget
    simp [mapGet] at hget
  · intro e j rec hj
    omega
  · simp [keysNodup]

theorem scanStep_inv (all : List StoredAccount) (i : Nat) (st : ScanState)
    (acc : StoredAccount) (hacc : all[i]? = some acc) (hinv : ScanInv all i st) :
    ScanInv all (i + 1) (scanStep st i acc) := by
  obtain ⟨h1, h2, h3, h4, h5⟩ := hinv
  have hreci : ∀ rec : StoredAccount, all[i]? = some rec → rec = acc := by
    intro rec h
    rw [hacc] at h
    exact (Option.some.inj h).symm
  cases he : emailKeyOf acc with
  | none =>
    have hs : scanStep st i acc = (st.1, st.2 ++ [i]) := by simp [scanStep, he]
    rw [hs]
    refine ⟨?_, ?_, ?_, ?_, h5⟩
    · intro j hj
      rcases List.mem_append.mp hj with hj | hj
      · obtain ⟨hlt, rec, hr1, hr2⟩ := h1 j hj
        exact ⟨by omega, rec, hr1, hr2⟩
      · have hji : j = i := by simpa using hj
        subst hji
        exact ⟨by omega, acc, hacc, he⟩
    · intro j rec hj hget hkey
      by_cases hji : j = i
      · subst hji
        simp
      · exact List.mem_append.mpr (Or.inl (h2 j rec (by omega) hget hkey))
    · intro e jp hget
      obtain ⟨ha, hb, hc, hd⟩ := h3 e jp hget
      refine ⟨by omega, hb, hc, ?_⟩
      intro j rec hj hget' hkey'
      by_cases hji : j = i
      · subst hji
        rw [hreci rec hget', he] at hkey'
        simp at hkey'
      · exact hd j rec (by omega) hget' hkey'
    · intro e j rec hj hget hkey
      by_cases hji : j = i
      · subst hji
        rw [hreci rec hget, he] at hkey
        simp at hkey
      · exact h4 e j rec (by omega) hget hkey
  | some e0 =>
    cases hm : mapGet st.1 e0 with
    | none =>
      have hs : scanStep st i acc = (mapSet st.1 e0 (i, acc), st.2) := by
        simp [scanStep, he, hm]
      rw [hs]
      refine ⟨?_, ?_, ?_, ?_, keysNodup_mapSet _ _ _ h5⟩
      · intro j hj
        obtain ⟨hlt, rec, hr1, hr2⟩ := h1 j hj
        exact ⟨by omega, rec, hr1, hr2⟩
      · intro j rec hj hget hkey
        by_cases hji : j = i
        · subst hji
          rw [hreci rec hget, he] at hkey
          simp at hkey
        · exact h2 j rec (by omega) hget hkey
      · intro e jp hget
        by_cases hee : e = e0
        · subst hee
          rw [mapGet_mapSet_self] at hget
          have hjp : jp = (i, acc) := (Option.some.inj hget).symm
          subst hjp
          refine ⟨by omega, hacc, he, ?_⟩
          intro j rec hj hget' hkey'
          by_cases hji : j = i
          · subst hji
            rw [hreci rec hget']
            exact isNewerStored_irrefl acc
          · have hsome := h4 e j rec (by omega) hget' hkey'
            rw [hm] at hsome
            simp at hsome
        · rw [mapGet_mapSet_ne _ _ _ _ hee] at hget
          obtain ⟨ha, hb, hc, hd⟩ := h3 e jp hget
          refine ⟨by omega, hb, hc, ?_⟩
          intro j rec hj hget' hkey'
          by_cases hji : j = i
          · subst hji
            rw [hreci rec hget', he] at hkey'
            exact absurd (Option.some.inj hkey').symm hee
          · exact hd j rec (by omega) hget' hkey'
      · intro e j rec hj hget hkey
        by_cases hee : e = e0
        · subst hee
          rw [mapGet_mapSet_self]
          rfl
        · rw [mapGet_mapSet_ne _ _ _ _ hee]
          by_cases hji : j = i
          · subst hji
            rw [hreci rec hget, he] at hkey
            exact absurd (Option.some.inj hkey).symm hee
          · exact h4 e j rec (by omega) hget hkey
    | some jp0 =>
      obtain ⟨hj0lt, hj0get, hj0key, hj0max⟩ := h3 e0 jp0 hm
      by_cases hn : isNewerStored acc jp0.2 = true
      · have hs : scanStep st i acc = (mapSet st.1 e0 (i, acc), st.2) := by
          simp [scanStep, he, hm, hn]
        rw [hs]
        refine ⟨?_, ?_, ?_, ?_, keysNodup_mapSet _ _ _ h5⟩
        · intro j hj
          obtain ⟨hlt, rec, hr1, hr2⟩ := h1 j hj
          exact ⟨by omega, rec, hr1, hr2⟩
        · intro j rec hj hget hkey
          by_cases hji : j = i
          · subst hji
            rw [hreci rec hget, he] at hkey
            simp at hkey
          · exact h2 j rec (by omega) hget hkey
        · intro e jp hget
          by_cases hee : e = e0
          · subst hee
            rw [mapGet_mapSet_self] at hget
            have hjp : jp = (i, acc) := (Option.some.inj hget).symm
            subst hjp
            refine ⟨by omega, hacc, he, ?_⟩
            intro j rec hj hget' hkey'
            by_cases hji : j = i
            · subst hji
              rw [hreci rec hget']
              exact isNewerStored_irrefl acc
            · have hold := hj0max j rec (by omega) hget' hkey'
              exact isNewerStored_trans_not rec jp0.2 acc hold hn
          · rw [mapGet_mapSet_ne _ _ _ _ hee] at hget
            obtain ⟨ha, hb, hc, hd⟩ := h3 e jp hget
            refine ⟨by omega, hb, hc, ?_⟩
            intro j rec hj hget' hkey'
            by_cases hji : j = i
            · subst hji
              rw [hreci rec hget', he] at hkey'
              exact absurd (Option.some.inj hkey').symm hee
            · exact hd j rec (by omega) hget' hkey'
        · intro e j rec hj hget hkey
          by_cases hee : e = e0
          · subst hee
            rw [mapGet_mapSet_self]
            rfl
          · rw [mapGet_mapSet_ne _ _ _ _ hee]
            by_cases hji : j = i
            · subst hji
              rw [hreci rec hget, he] at hkey
              exact absurd (Option.some.inj hkey).symm hee
            · exact h4 e j rec (by omega) hget hkey
      · have hnf : isNewerStored acc jp0.2 = false := by
          cases hval : isNewerStored acc jp0.2
          · rfl
          · exact absurd hval hn
        have hs : scanStep st i acc = st := by
          simp [scanStep, he, hm, hnf]
        rw [hs]
        refine ⟨?_, ?_, ?_, ?_, h5⟩
        · intro j hj
          obtain ⟨hlt, rec, hr1, hr2⟩ := h1 j hj
          exact ⟨by omega, rec, hr1, hr2⟩
        · intro j rec hj hget hkey
          by_cases hji : j = i
          · subst hji
            rw [hreci rec hget, he] at hkey
            simp at hkey
          · exact h2 j rec (by omega) hget hkey
        · intro e jp hget
          obtain ⟨ha, hb, hc, hd⟩ := h3 e jp hget
          refine ⟨by omega, hb, hc, ?_⟩
          intro j rec hj hget' hkey'
          by_cases hji : j = i
          · subst hji
            have hra := hreci rec hget'
            rw [hra, he] at hkey'
            have hee : e = e0 := (Option.some.inj hkey').symm
            subst hee
            rw [hm] at hget
            have hjj : jp0 = jp := Option.some.inj hget
            rw [hra, ← hjj]
            exact hnf
          · exact hd j rec (by omega) hget' hkey'
        · intro e j rec hj hget hkey
          by_cases hji : j = i
          · subst hji
            rw [hreci rec hget, he] at hkey
            have hee : e = e0 := (Option.some.inj hkey).symm
            rw [hee, hm]
            rfl
          · exact h4 e j rec (by omega) hget hkey

theorem dedupScan_inv (all : List StoredAccount) :
    ∀ (l : List StoredAccount) (i : Nat) (st : ScanState),
      (∀ off, l[off]? = all[i + off]?) → i + l.length = all.length →
      ScanInv all i st → ScanInv all all.length (dedupScan l i st) := by
  intro l
  induction l with
  | nil =>
    intro i st _ hlen hinv
    have hi : i = all.length := by simpa using hlen
    subst hi
    exact hinv
  | cons a rest ih =>
    intro i st hoff hlen hinv
    have hacc : all[i]? = some a := by
      have h0 := hoff 0
      simpa using h0.symm
    show ScanInv all all.length (dedupScan rest (i + 1) (scanStep st i a))
    refine ih (i + 1) _ ?_ (by simpa using Nat.succ_add i rest.length ▸ hlen) ?_
    · intro off
      have h1 := hoff (off + 1)
      rw [show i + 1 + off = i + (off + 1) by omega]
      simpa using h1
    · exact scanStep_inv all i st a hacc hinv

theorem dedup_sound (accounts : List StoredAccount) :
    (∀ x ∈ deduplicateAccountsByEmail accounts, x ∈ accounts)
    ∧ (∀ b ∈ accounts, emailKeyOf b = none → b ∈ deduplicateAccountsByEmail accounts)
    ∧ (∀ e b, b ∈ accounts → emailKeyOf b = some e →
        ∃ x, x ∈ deduplicateAccountsByEmail accounts ∧ emailKeyOf x = some e)
    ∧ (∀ e x, x ∈ deduplicateAccountsByEmail accounts → emailKeyOf x = some e →
        ∀ b ∈ accounts, emailKeyOf b = some e → isNewerStored b x = false)
    ∧ (∀ e x y, x ∈ deduplicateAccountsByEmail accounts →
        y ∈ deduplicateAccountsByEmail accounts →
        emailKeyOf x = some e → emailKeyOf y = some e → x = y) := by
  have hinv : ScanInv accounts accounts.length (dedupScan accounts 0 ([], [])) :=
    dedupScan_inv accounts accounts 0 ([], []) (fun off => by simp) (by simp)
      (scanInv_base accounts)
  set st := dedupScan accounts 0 ([], []) with hst
  obtain ⟨h1, h2, h3, h4, h5⟩ := hinv
  have hd : deduplicateAccountsByEmail accounts =
      collectKept accounts 0 (st.2 ++ st.1.map (fun p => p.2.1)) := rfl
  have hmem_idx : ∀ b : StoredAccount, b ∈ accounts →
      ∃ j, j < accounts.length ∧ accounts[j]? = some b := by
    intro b hb
    obtain ⟨j, hj⟩ := List.mem_iff_getElem?.mp hb
    have hlt : j < accounts.length := by
      by_contra hge
      rw [List.getElem?_eq_none (by omega)] at hj
      exact Option.noConfusion hj
    exact ⟨j, hlt, hj⟩
  have hmem_dedup : ∀ x, x ∈ deduplicateAccountsByEmail accounts →
      ∃ j, j < accounts.length ∧ accounts[j]? = some x ∧
        (j ∈ st.2 ∨ ∃ q ∈ st.1, q.2.1 = j) := by
    intro x hx
    rw [hd] at hx
    obtain ⟨off, hlt, hkp, hget⟩ := (mem_collectKept accounts 0 _ x).mp hx
    have hkp' : off ∈ st.2 ++ st.1.map (fun p => p.2.1) := by simpa using hkp
    refine ⟨off, hlt, hget, ?_⟩
    rcases List.mem_append.mp hkp' with hj | hj
    · exact Or.inl hj
    · obtain ⟨q, hq, hqq⟩ := List.mem_map.mp hj
      exact Or.inr ⟨q, hq, hqq⟩
  have hentry : ∀ e x, x ∈ deduplicateAccountsByEmail accounts → emailKeyOf x = some e →
      ∃ q, q ∈ st.1 ∧ q.1 = e ∧ q.2.2 = x ∧ mapGet st.1 e = some q.2 := by
    intro e x hx hkey
    obtain ⟨j, hjlt, hjget, hj⟩ := hmem_dedup x hx
    rcases hj with hj | ⟨q, hq, hqj⟩
    · obtain ⟨_, rec, hrget, hrkey⟩ := h1 j hj
      rw [hjget] at hrget
      rw [← Option.some.inj hrget] at hrkey
      rw [hkey] at hrkey
      exact Option.noConfusion hrkey
    · have hq_get : mapGet st.1 q.1 = some q.2 := mapGet_of_mem_nodup h5 hq
      obtain ⟨hq_lt, hq_acc, hq_key, hq_max⟩ := h3 q.1 q.2 hq_get
      rw [hqj, hjget] at hq_acc
      have hxq : x = q.2.2 := Option.some.inj hq_acc
      have hqe : q.1 = e := by
        rw [← hxq] at hq_key
        rw [hkey] at hq_key
        exact (Option.some.inj hq_key).symm
      rw [hqe] at hq_get
      exact ⟨q, hq, hqe, hxq.symm, hq_get⟩
  refine ⟨?_, ?_, ?_, ?_, ?_⟩
  · intro x hx
    obtain ⟨j, _, hjget, _⟩ := hmem_dedup x hx
    exact List.mem_iff_getElem?.mpr ⟨j, hjget⟩
  · intro b hb hkey
    obtain ⟨j, hjlt, hjget⟩ := hmem_idx b hb
    have hj2 : j ∈ st.2 := h2 j b hjlt hjget hkey
    rw [hd]
    refine (mem_collectKept accounts 0 _ b).mpr ⟨j, hjlt, ?_, hjget⟩
    rw [Nat.zero_add]
    exact List.mem_append.mpr (Or.inl hj2)
  · intro e b hb hkey
    obtain ⟨j, hjlt, hjget⟩ := hmem_idx b hb
    have hsome := h4 e j b hjlt hjget hkey
    obtain ⟨jp, hjp⟩ := Option.isSome_iff_exists.mp hsome
    obtain ⟨hjp_lt, hjp_acc, hjp_key, _⟩ := h3 e jp hjp
    have hqmem : (e, jp) ∈ st.1 := mapGet_mem hjp
    have hkeep : jp.1 ∈ st.2 ++ st.1.map (fun p => p.2.1) :=
      List.mem_append.mpr (Or.inr (List.mem_map.mpr ⟨(e, jp), hqmem, rfl⟩))
    refine ⟨jp.2, ?_, hjp_key⟩
    rw [hd]
    refine (mem_collectKept accounts 0 _ jp.2).mpr ⟨jp.1, hjp_lt, ?_, hjp_acc⟩
    rw [Nat.zero_add]
    exact hkeep
  · intro e x hx hkey b hb hbkey
    obtain ⟨q, hq, hqe, hqx, hq_get⟩ := hentry e x hx hkey
    obtain ⟨_, _, _, hq_max⟩ := h3 e q.2 hq_get
    obtain ⟨jb, hjblt, hjbget⟩ := hmem_idx b hb
    have := hq_max jb b hjblt hjbget hbkey
    rw [hqx] at this
    exact this
  · intro e x y hx hy hkeyx hkeyy
    obtain ⟨qx, _, _, hqx, hqx_get⟩ := hentry e x hx hkeyx
    obtain ⟨qy, _, _, hqy, hqy_get⟩ := hentry e y hy hkeyy
    rw [hqx_get] at hqy_get
    rw [← hqx, ← hqy]
    rw [Option.some.inj hqy_get]

/-- C8 (amended): loadAccounts drops exactly the records whose
refreshToken is missing or not a string — a record with an empty-string
token is kept — and deduplicates the remaining records by exact
(case-sensitive) email match: every kept record comes from the input,
records without an email are always kept, each stored email keeps
exactly one record, and that record is one no other record with the
same email strictly beats on (lastUsed, addedAt) ordered
lexicographically. -/
theorem loadAccounts_dedup_spec (data : AccountStorage) :
    (∀ x ∈ (loadAccountsV3 data).accounts,
        x ∈ data.accounts ∧ x.refreshToken.isSome = true)
    ∧ (∀ b ∈ data.accounts, b.refreshToken.isSome = true → emailKeyOf b = none →
        b ∈ (loadAccountsV3 data).accounts)
    ∧ (∀ e b, b ∈ data.accounts → b.refreshToken.isSome = true → emailKeyOf b = some e →
        ∃ x, x ∈ (loadAccountsV3 data).accounts ∧ emailKeyOf x = some e)
    ∧ (∀ e x, x ∈ (loadAccountsV3 data).accounts → emailKeyOf x = some e →
        ∀ b ∈ data.accounts, b.refreshToken.isSome = true → emailKeyOf b = some e →
          isNewerStored b x = false)
    ∧ (∀ e x y, x ∈ (loadAccountsV3 data).accounts → y ∈ (loadAccountsV3 data).accounts →
        emailKeyOf x = some e → emailKeyOf y = some e → x = y) := by
  obtain ⟨hd1, hd2, hd3, hd4, hd5⟩ :=
    dedup_sound (data.accounts.filter (fun a => a.refreshToken.isSome))
  have hacc : (loadAccountsV3 data).accounts =
      deduplicateAccountsByEmail (data.accounts.filter (fun a => a.refreshToken.isSome)) := rfl
  rw [hacc]
  refine ⟨?_, ?_, ?_, ?_, hd5⟩
  · intro x hx
    have := hd1 x hx
    exact ⟨(List.mem_filter.mp this).1, (List.mem_filter.mp this).2⟩
  · intro b hb htok hkey
    exact hd2 b (List.mem_filter.mpr ⟨hb, htok⟩) hkey
  · intro e b hb htok hkey
    exact hd3 e b (List.mem_filter.mpr ⟨hb, htok⟩) hkey
  · intro e x hx hkey b hb htok hbkey
    exact hd4 e x hx hkey b (List.mem_filter.mpr ⟨hb, htok⟩) hbkey

/-- Witness for C8 (amended): a record without an email survives the
load, and for the duplicated email only one record survives. -/
def c8WNoEmail : StoredAccount :=
  { email := none, refreshToken := some "x", projectId := none, managedProjectId := none,
    addedAt := 5, lastUsed := 0, lastSwitchReason := none,
    rateLimitResetTimes := [], coolingDownUntil := none, cooldownReason := none }

def c8WStorage : AccountStorage :=
  { accounts := [c8WNoEmail, c8LowerTok], activeIndex := 0,
    activeClaude := none, activeGemini := none }

theorem loadAccounts_dedup_spec_witness :
    c8WNoEmail ∈ (loadAccountsV3 c8WStorage).accounts := by
  exact (loadAccounts_dedup_spec c8WStorage).2.1 c8WNoEmail (by decide) (by decide) (by decide)

end Antigravity
